import Mathlib

/-!
Verification of the sumcheck-protocol repository.

This file gives a shallow embedding, in Lean 4, of the Rust sources
`fp.rs`, `upolynomial.rs`, `mpolynomial.rs` and `lib.rs` of the
sumcheck-protocol crate, and proves (or refutes) the specification
claims about them.

Modelling conventions:
* A field element `Fp` is the `u64` payload of the Rust struct `Fp(pub u64)`,
  modelled as a `Nat`.  Nothing forces the payload to be canonically reduced,
  exactly as in the source, so canonicity (`< MODULO`) appears as an explicit
  hypothesis where a claim needs it.
* Rust code that can panic (failed `assert!`, arithmetic underflow of an
  unsigned quantity, out-of-bounds indexing) is modelled with `Option`:
  `none` is an aborted run.
* `while` loops that are not structurally recursive are written with an
  explicit fuel argument; the fuel passed by the wrappers is proved (or is
  obvious) to be enough for every input reachable in the source, so the
  fuel-exhausted branch is never taken there.
-/

set_option maxRecDepth 100000

namespace Sumcheck

/-- The u64 payload of the Rust field element struct `Fp(pub u64)`. -/
abbrev Fp := Nat

/-- Goldilocks prime, `(2u128.pow(64) - 2u128.pow(32) + 1) as u64` from `fp.rs`. -/
def MODULO : Nat := 2 ^ 64 - 2 ^ 32 + 1

/-- The number of values of a `u64`; wrap-around arithmetic is modulo this. -/
def U64SIZE : Nat := 2 ^ 64

/- Rust `u64::overflowing_add x y` is `((x + y) % U64SIZE, carry)` with the
carry flag set exactly when `U64SIZE ≤ x + y`, and `u64::overflowing_sub x y`
is `((x + U64SIZE - y) % U64SIZE, borrow)` with the borrow flag set exactly
when `x < y`.  The two call sites below (`Fp.halveCofactor`, `Fp.cofSub`)
inline this, branching directly on the carry/borrow condition. -/

namespace Fp

/-- Rust `impl Add for Fp`: widen to u128, add, reduce `% MODULO`. -/
def add (a b : Fp) : Fp := (a + b) % MODULO

/-- Rust `impl Sub for Fp`: `(a + MODULO - b) % MODULO` computed in u128.
The u128 subtraction cannot underflow when `b ≤ a + MODULO`, which holds for
every call site in the repository (all arguments there are `< U64SIZE` and in
fact reduced); `Nat` truncated subtraction is used for the same expression. -/
def sub (a b : Fp) : Fp := (a + MODULO - b) % MODULO

/-- Rust `impl Mul for Fp`: widen to u128, multiply, reduce `% MODULO`. -/
def mul (a b : Fp) : Fp := (a * b) % MODULO

/-- Rust `Fp::neg` and `impl Neg for Fp`: `MODULO - self.0`, with NO final
reduction.  The u64 subtraction cannot underflow when `a ≤ MODULO`. -/
def neg (a : Fp) : Fp := MODULO - a

/-- Rust `Fp::from`: canonicalize an arbitrary value, `value % MODULO`. -/
def fromNat (value : Nat) : Fp := value % MODULO

/-- Rust `impl Rem for Fp`: `(a % b) % MODULO`; `a % 0` panics in Rust. -/
def rem (a b : Fp) : Option Fp :=
  if b = 0 then none else some ((a % b) % MODULO)

/-- The square-and-multiply loop of Rust `Fp::pow` (`while p > 0`), with fuel.
`p & 1 == 1` is `p % 2 = 1` and `p >>= 1` is `p / 2`.  The loop halves `p`
each iteration, so fuel 32 is enough for any u32 exponent. -/
def powLoop : Nat → Fp → Fp → Nat → Fp
  | 0, result, _, _ => result
  | fuel + 1, result, base, p =>
    if p = 0 then result
    else powLoop fuel (if p % 2 = 1 then mul result base else result) (mul base base) (p / 2)

/-- Rust `Fp::pow`: square-and-multiply with `result = 1`, `base = self`. -/
def pow (a : Fp) (p0 : Nat) : Fp := powLoop 32 1 a p0

/-- The cofactor update of the halving loops in Rust `Fp::inverse`:
if `s` is even, `s >>= 1`; otherwise `(s, carry) = overflowing_add(s, modulo);
s >>= 1; if carry { s |= 1 << 63 }` — the wrapped sum is `(s+MODULO) % U64SIZE`
and the carry flag is `U64SIZE ≤ s + MODULO`. -/
def halveCofactor (s : Nat) : Nat :=
  if s % 2 = 0 then s / 2
  else
    let s1 := ((s + MODULO) % U64SIZE) / 2
    if U64SIZE ≤ s + MODULO then s1 ||| (1 <<< 63) else s1

/-- One of the two inner `while v & 1 == 0` halving loops of `Fp::inverse`,
with fuel.  The source loop does not terminate for `v = 0`; for every state
reachable in `inverse` the value is positive and `< 2 ^ 64`, so fuel 64 is
always enough there. -/
def halveLoop : Nat → Nat → Nat → Nat × Nat
  | 0, v, s => (v, s)
  | fuel + 1, v, s =>
    if v % 2 = 0 then halveLoop fuel (v / 2) (halveCofactor s) else (v, s)

/-- The cofactor subtraction of `Fp::inverse`:
`(s, borrow) = overflowing_sub(s, r); if borrow { s = overflowing_add(s, modulo).0 }`
— the wrapped difference is `(s + U64SIZE - r) % U64SIZE` and the borrow flag
is `s < r`. -/
def cofSub (s r : Nat) : Nat :=
  let diff := (s + U64SIZE - r) % U64SIZE
  if s < r then (diff + MODULO) % U64SIZE else diff

/-- The mutable state `(v, u, s, r)` of the loop in Rust `Fp::inverse`. -/
structure InvState where
  v : Nat
  u : Nat
  s : Nat
  r : Nat
deriving DecidableEq

/-- The outer `while u != 1 && v != 1` loop of Rust `Fp::inverse`, with fuel.
Each iteration strictly decreases `u + v` (shown in the correctness proof),
so fuel `u + v` is always enough. -/
def inverseLoop : Nat → InvState → InvState
  | 0, st => st
  | fuel + 1, st =>
    if st.u = 1 ∨ st.v = 1 then st
    else
      let vs := halveLoop 64 st.v st.s
      let ur := halveLoop 64 st.u st.r
      if ur.1 ≤ vs.1 then
        -- v >= u: v -= u; s = s - r (mod-corrected)
        inverseLoop fuel ⟨vs.1 - ur.1, ur.1, cofSub vs.2 ur.2, ur.2⟩
      else
        -- u -= v; r = r - s (mod-corrected)
        inverseLoop fuel ⟨vs.1, ur.1 - vs.1, vs.2, cofSub ur.2 vs.2⟩

/-- Rust `Fp::inverse` (Algorithm 16, binary extended Euclid):
zero maps to zero; otherwise run the loop from
`v = self.0, u = MODULO, s = 1, r = 0` and return the canonicalized
cofactor `r` if `u = 1`, else `s`. -/
def inverse (a : Fp) : Fp :=
  if a = 0 then 0
  else
    let st := inverseLoop (MODULO + a) ⟨a, MODULO, 1, 0⟩
    if st.u = 1 then fromNat st.r else fromNat st.s

/-- Rust `impl Div for Fp`: sanitize both operands with `Fp::from`, then
`a * b.inverse()`. -/
def div (a b : Fp) : Fp := mul (fromNat a) (inverse (fromNat b))

/-- The reverse sweep `for i in (0..a.len()).rev()` of Rust `Fp::multi_inv`,
processing the zipped `(a[i], partials[i])` pairs from the highest index
down (the argument list is the reversed zip); produces the outputs in that
same reversed order.  `outputs[i] = partials[i] * inv`, overridden to 1 when
`a[i] == 0`, then `inv = inv * a[i]`. -/
def multiInvRevLoop : List (Fp × Fp) → Fp → List Fp
  | [], _ => []
  | (ai, pi) :: rest, inv =>
    (if ai = 0 then 1 else mul pi inv) :: multiInvRevLoop rest (mul inv ai)

/-- Rust `Fp::multi_inv`: running-product array `partials`
(`partials[0] = 1`, `partials[i+1] = partials[i] * a[i]`, i.e. the scanl of
multiplication), one inverse of the total product `partials[a.len()]`, then
the reverse sweep over the `(a[i], partials[i])` pairs. -/
def multi_inv (a : List Fp) : List Fp :=
  (multiInvRevLoop ((a.zip ((a.scanl mul 1).take a.length)).reverse)
    (inverse ((a.scanl mul 1).getD a.length 0))).reverse

end Fp

/-- Rust struct `UPolynomial { coefficients: Vec<Fp> }`. -/
structure UPolynomial where
  coefficients : List Fp
deriving DecidableEq

namespace UPolynomial

/-- The body of the `for x in xs` loop of Rust `UPolynomial::zero_at_given_x`:
insert a zero at index 0 and update `root[j] = root[j] - root[j+1] * x` for
`j in 0..root.len()-1`. -/
def rootStep (root : List Fp) (x : Fp) : List Fp :=
  let root1 := 0 :: root
  (List.range (root1.length - 1)).foldl
    (fun acc j => acc.set j (Fp.sub (acc.getD j 0) (Fp.mul (acc.getD (j + 1) 0) x)))
    root1

/-- Rust `UPolynomial::zero_at_given_x`: start from `[1]` and run `rootStep`
over all the given roots. -/
def zero_at_given_x (xs : List Fp) : UPolynomial :=
  ⟨xs.foldl rootStep [1]⟩

/-- Rust `UPolynomial::eval`: asserts `x.len() == coefficients.len() - 1`
(for an empty coefficient list the `usize` subtraction aborts first), then
sums `coefficients[i] * x[i]^(len-1-i)` for `i < x.len()` and adds the last
coefficient as the constant term. -/
def eval (p : UPolynomial) (x : List Fp) : Option Fp :=
  if p.coefficients.length = 0 then none
  else if x.length ≠ p.coefficients.length - 1 then none
  else
    some ((List.range p.coefficients.length).foldl
      (fun result i =>
        let term := p.coefficients.getD i 0
        if i < x.length then
          Fp.add result (Fp.mul term (Fp.pow (x.getD i 0) (p.coefficients.length - 1 - i)))
        else Fp.add result term)
      0)

/-- Rust `UPolynomial::degree`: `coefficients.len() - 1`; the `usize`
subtraction aborts on an empty coefficient list. -/
def degree (p : UPolynomial) : Option Nat :=
  if p.coefficients.length = 0 then none else some (p.coefficients.length - 1)

/-- The subtraction pass of one division step,
`for i in (0..=b_pos).rev() { a_copy[diff+i] -= rhs.coefficients[i] * quot }`. -/
def divSubtract (aCopy b : List Fp) (bpos d : Nat) (quot : Fp) : List Fp :=
  ((List.range (bpos + 1)).reverse).foldl
    (fun acc i => acc.set (d + i) (Fp.sub (acc.getD (d + i) 0) (Fp.mul (b.getD i 0) quot)))
    aCopy

/-- The `loop { ... }` of Rust `impl Div for UPolynomial`, indexed by the
current `diff` (which decreases by one per iteration; `a_pos = diff + b_pos`).
Each iteration pushes `quot = a_copy[a_pos] / rhs[b_pos]` and subtracts the
shifted multiple of the divisor.  After the final iteration (`diff = 0`) the
source still executes `a_pos -= 1`; when `a_pos = 0` (i.e. `b_pos = 0`) that
`usize` subtraction aborts, modelled by `none`. -/
def divLoop (b : List Fp) (bpos : Nat) : Nat → List Fp → List Fp → Option (List Fp)
  | 0, aCopy, output =>
    let quot := Fp.div (aCopy.getD bpos 0) (b.getD bpos 0)
    let _ := divSubtract aCopy b bpos 0 quot
    if bpos = 0 then none else some (output ++ [quot])
  | d + 1, aCopy, output =>
    let quot := Fp.div (aCopy.getD (d + 1 + bpos) 0) (b.getD bpos 0)
    divLoop b bpos d (divSubtract aCopy b bpos (d + 1) quot) (output ++ [quot])

/-- Rust `impl Div for UPolynomial`: returns the empty sentinel when the
dividend is shorter than the divisor; an empty divisor aborts
(`rhs.coefficients.len() - 1` underflows); otherwise runs the division loop
with `diff = (a.len()-1) - (b.len()-1)`. -/
def div (a rhs : UPolynomial) : Option UPolynomial :=
  if a.coefficients.length < rhs.coefficients.length then some ⟨[]⟩
  else if rhs.coefficients.length = 0 then none
  else
    (divLoop rhs.coefficients (rhs.coefficients.length - 1)
        (a.coefficients.length - rhs.coefficients.length) a.coefficients []).map
      (fun output => ⟨output⟩)

/-- One write of the accumulation loop of Rust `UPolynomial::interpolate`:
`if b.len() <= j { b.push(Fp::zero()); } b[j] = b[j] + res_mul;` — pushing a
single zero; if the index is still out of bounds afterwards the Rust
indexing panics, modelled by `none`. -/
def bStep (b : List Fp) (j : Nat) (res_mul : Fp) : Option (List Fp) :=
  let b1 := if b.length ≤ j then b ++ [0] else b
  if j < b1.length then some (b1.set j (Fp.add (b1.getD j 0) res_mul)) else none

/-- One guarded cell of the accumulation loops of Rust
`UPolynomial::interpolate`: `if numerators[i].coefficients[j] != Fp::zero()
&& ys[i] != Fp::zero()`, accumulate `coeff * y_slice` into `b[j]` (via
`bStep`), otherwise leave `b` unchanged. -/
def bCell (coeff y y_slice : Fp) (b : List Fp) (j : Nat) : Option (List Fp) :=
  if coeff ≠ 0 ∧ y ≠ 0 then bStep b j (Fp.mul coeff y_slice) else some b

/-- The nested accumulation loops of Rust `UPolynomial::interpolate`:
for each point `i` with `y_slice = ys[i] * inv_denominators[i]`, and each
coefficient index `j < ys.len()`, if `numerators[i].coefficients[j] != 0`
and `ys[i] != 0`, accumulate `numerators[i].coefficients[j] * y_slice`
into `b[j]`. -/
def bAssemble (numerators : List UPolynomial) (ys inv_denominators : List Fp) : Option (List Fp) :=
  (List.range ys.length).foldl
    (fun acc i => do
      let b ← acc
      let y_slice := Fp.mul (ys.getD i 0) (inv_denominators.getD i 0)
      (List.range ys.length).foldl
        (fun acc2 j => do
          let b2 ← acc2
          bCell ((numerators.getD i ⟨[]⟩).coefficients.getD j 0) (ys.getD i 0) y_slice b2 j)
        (some b))
    (some [])

/-- Rust `UPolynomial::interpolate`: root polynomial over all x's, sentinel
check `root.len() != points.len() + 1`, per-point numerators
`root / (X - x_i)` (divisor written `[Fp::neg(x), Fp::one()]`), denominators
by evaluating each numerator at its own point, batch inversion, then the
accumulation loops. -/
def interpolate (points : List (Fp × Fp)) : Option UPolynomial :=
  let xs := points.map Prod.fst
  let ys := points.map Prod.snd
  let root := zero_at_given_x xs
  if root.coefficients.length ≠ points.length + 1 then some ⟨[]⟩
  else do
    let numerators ← xs.mapM (fun x => div root ⟨[Fp.neg x, 1]⟩)
    let denominator ← (List.range xs.length).mapM
      (fun i => (numerators.getD i ⟨[]⟩).eval [xs.getD i 0])
    let inv_denominators := Fp.multi_inv denominator
    let b ← bAssemble numerators ys inv_denominators
    some ⟨b⟩

end UPolynomial

/-- The degree-`k` coefficient of the product of two coefficient lists read
lowest-degree-first: `Σ_i a[i] * b[k-i]`, out-of-range coefficients read as
zero.  Used to state the specification's multiplication identities; the
repository itself has no polynomial multiplication. -/
def convEntry (a b : List Fp) (k : Nat) : Fp :=
  (List.range (k + 1)).foldl
    (fun acc i => Fp.add acc (Fp.mul (a.getD i 0) (b.getD (k - i) 0)))
    0

/-- Product of two polynomials in lowest-degree-first coefficient order
(standard convolution of the coefficient lists over the field). -/
def polyMulLow (a b : List Fp) : List Fp :=
  if a.length = 0 ∨ b.length = 0 then []
  else (List.range (a.length + b.length - 1)).map (convEntry a b)

/-- The value the division loop writes at absolute index `j` during the
subtraction pass with offset `d`: `old - b[j - d] * quot`.  Proof-side
reformulation of the body of `divSubtract`. -/
def subVal (b : List Fp) (quot : Fp) (d j : Nat) (old : Fp) : Fp :=
  Fp.sub old (Fp.mul (b.getD (j - d) 0) quot)

/-- Proof-side name for the linear coefficient the division loop produces
when two-point interpolation over roots `[u, w]` divides the root polynomial
by `[Fp.neg v, 1]` (with `v` the root being removed): the updated entry at
index 1 after the first subtraction pass, divided by the leading divisor
coefficient 1.  Its value in the field is `-w` for `v = u` and `-u` for
`v = w`. -/
def lagNum (u w v : Fp) : Fp :=
  Fp.div (Fp.sub (Fp.sub (Fp.sub 0 (Fp.mul 1 u)) (Fp.mul 1 w)) (Fp.mul (Fp.neg v) 1)) 1

/-- Proof-side name for the denominator two-point interpolation computes:
`eval ⟨[1, n]⟩ [x]`, the numerator polynomial evaluated at its own point. -/
def lagDen (n x : Fp) : Fp :=
  Fp.add (Fp.add 0 (Fp.mul 1 (Fp.pow x 1))) n

/-- Proof-side name for the total denominator product fed to `Fp.inverse`
inside `Fp.multi_inv` during two-point interpolation. -/
def lagP (u w : Fp) : Fp :=
  Fp.mul (Fp.mul 1 (lagDen (lagNum u w u) u)) (lagDen (lagNum u w w) w)

/-- Proof-side name for the first batch-inverted denominator. -/
def lagU0 (u w : Fp) : Fp :=
  Fp.mul 1 (Fp.mul (Fp.inverse (lagP u w)) (lagDen (lagNum u w w) w))

/-- Proof-side name for the second batch-inverted denominator. -/
def lagU1 (u w : Fp) : Fp :=
  Fp.mul (Fp.mul 1 (lagDen (lagNum u w u) u)) (Fp.inverse (lagP u w))

/-- Rust struct `MPolynomial { coefficients: Vec<Fp>, powers: Vec<u32> }`. -/
structure MPolynomial where
  coefficients : List Fp
  powers : List Nat
deriving DecidableEq

namespace MPolynomial

/-- Rust `MPolynomial::eval`: asserts `x.len() == powers.len()`, then sums
`coefficients[i] * x[i]^powers[i]` for `i < powers.len()` and adds any
trailing coefficient as a constant. -/
def eval (p : MPolynomial) (x : List Fp) : Option Fp :=
  if x.length ≠ p.powers.length then none
  else
    some ((List.range p.coefficients.length).foldl
      (fun result i =>
        let term := p.coefficients.getD i 0
        if i < p.powers.length then
          Fp.add result (Fp.mul term (Fp.pow (x.getD i 0) (p.powers.getD i 0)))
        else Fp.add result term)
      0)

/-- Rust `MPolynomial::degree_ind`: maximum power over all variables. -/
def degree_ind (p : MPolynomial) : Nat :=
  p.powers.foldl (fun result pw => if result < pw then pw else result) 0

/-- Rust `MPolynomial::number_of_vars`: `powers.len()`. -/
def number_of_vars (p : MPolynomial) : Nat := p.powers.length

/-- Rust `MPolynomial::sum_over_hyper_cube`: with an optional already-fixed
variable list, enumerate all `2^(vars - fixed)` boolean suffixes
(`x.push(Fp((i >> j) & 1))`) and accumulate the evaluations.  The u32
subtraction `vars_len - initial_x.len()` aborts when the provided list is
longer than the variable count. -/
def sum_over_hyper_cube (p : MPolynomial) (provided_x : Option (List Fp)) : Option Fp :=
  let initial_x := provided_x.getD []
  if p.powers.length < initial_x.length then none
  else
    (List.range (2 ^ (p.powers.length - initial_x.length))).foldl
      (fun acc i => do
        let r ← acc
        let x := initial_x ++
          (List.range (p.powers.length - initial_x.length)).map (fun j => (i >>> j) &&& 1)
        let e ← p.eval x
        some (Fp.add r e))
      (some 0)

end MPolynomial

/-- Rust struct `SumcheckProtocol` (the mutable protocol state). -/
structure SumcheckState where
  polynomial : MPolynomial
  interaction_completed : Bool
  randomness : List Fp
  statement : Fp
  step : Nat
  previous_step : Option UPolynomial

namespace SumcheckProtocol

/-- Rust `SumcheckProtocol::new`. -/
def new (polynomial : MPolynomial) : SumcheckState :=
  ⟨polynomial, false, [], 0, 0, none⟩

/-- The round-consistency block of Rust `SumcheckProtocol::verify`:
first round (`previous_step.is_none()`): store the received polynomial and
`assert_eq!(res1 + res2, statement)`; later rounds:
`assert!(randomness.len() > 0)`, then
`assert_eq!(res1 + res2, previous_step(latest_randomness))` and store the
received polynomial.  `none` is an aborted run. -/
def consistencyCheck (s : SumcheckState) (p : UPolynomial) (res1 res2 : Fp) :
    Option SumcheckState :=
  match s.previous_step with
  | none =>
    if Fp.add res1 res2 = s.statement
    then some { s with previous_step := some p } else none
  | some q =>
    -- assert!(randomness.len() > 0); `.get(len - 1).unwrap()` cannot
    -- fail past this assert
    if s.randomness.length = 0 then none
    else
      match q.eval [s.randomness.getLastD 0] with
      | some prev_eval =>
        if Fp.add res1 res2 = prev_eval
        then some { s with previous_step := some p } else none
      | none => none

/-- The tail of Rust `SumcheckProtocol::verify` after the consistency block
(`s1` is the state it produced): if
`randomness.len() == number_of_vars() - 1` (the usize subtraction aborts for
a zero-variable statement), push the final challenge, assert the full
statement evaluation equals the round polynomial at that challenge and mark
the interaction complete; otherwise advance the round counter and push a
fresh challenge. -/
def finalOrAdvance (s s1 : SumcheckState) (p : UPolynomial) (sample : Fp) :
    Option SumcheckState :=
  if s.polynomial.number_of_vars = 0 then none
  else if s.randomness.length = s.polynomial.number_of_vars - 1 then
    let randomness1 := s.randomness ++ [sample]
    match s.polynomial.eval randomness1, p.eval [sample] with
    | some full_eval, some rec_eval =>
      if full_eval = rec_eval then
        some { s1 with randomness := randomness1, interaction_completed := true }
      else none
    | _, _ => none
  else
    some { s1 with step := s.step + 1, randomness := s.randomness ++ [sample] }

/-- Rust `SumcheckProtocol::verify`.  The verifier samples fresh randomness
with `Fp::sample()` inside the call; the sampled value is passed here as the
explicit argument `sample` (at most one sample is drawn per call).  `none`
models an aborted run (failed assertion or usize underflow):
1. `assert!(rec_polynomial.is_some())`;
2. completed interactions make the call a no-op;
3. `assert!(degree() <= degree_ind())` (degree of an empty polynomial aborts);
4. `res1 = p(0)`, `res2 = p(1)` (an eval arity mismatch aborts);
5. the round-consistency block `consistencyCheck`;
6. the final-round check or round advance `finalOrAdvance`. -/
def verify (s : SumcheckState) (rec_polynomial : Option UPolynomial) (sample : Fp) :
    Option SumcheckState :=
  match rec_polynomial with
  | none => none
  | some p =>
    if s.interaction_completed then some s
    else
      p.degree.bind fun d =>
        if ¬ d ≤ s.polynomial.degree_ind then none
        else
          (p.eval [0]).bind fun res1 =>
            (p.eval [1]).bind fun res2 =>
              (consistencyCheck s p res1 res2).bind fun s1 =>
                finalOrAdvance s s1 p sample

/-- Rust `SumcheckProtocol::is_verifier_accept`. -/
def is_verifier_accept (s : SumcheckState) : Bool := s.interaction_completed

end SumcheckProtocol

/-! ## Helper lemmas -/

/-- A fold of index-wise writes never changes the length of the list. -/
theorem foldl_set_length (g : List Fp → Nat → Fp) :
    ∀ (idxs : List Nat) (acc : List Fp),
      (idxs.foldl (fun a j => a.set j (g a j)) acc).length = acc.length := by
  intro idxs
  induction idxs with
  | nil => intro acc; rfl
  | cons j rest ih => intro acc; simp only [List.foldl_cons, ih, List.length_set]

/-- One root-insertion step grows the coefficient list by exactly one. -/
theorem rootStep_length (root : List Fp) (x : Fp) :
    (UPolynomial.rootStep root x).length = root.length + 1 := by
  unfold UPolynomial.rootStep
  exact foldl_set_length
    (fun a j => Fp.sub (a.getD j 0) (Fp.mul (a.getD (j + 1) 0) x)) _ _

/-- The root polynomial always has exactly one more coefficient than the
number of supplied roots, whether or not the roots are distinct. -/
theorem zero_at_given_x_length (xs : List Fp) :
    (UPolynomial.zero_at_given_x xs).coefficients.length = xs.length + 1 := by
  unfold UPolynomial.zero_at_given_x
  suffices h : ∀ (l : List Fp) (init : List Fp),
      (l.foldl UPolynomial.rootStep init).length = init.length + l.length by
    simpa [Nat.add_comm] using h xs [1]
  intro l
  induction l with
  | nil => intro init; simp
  | cons x rest ih =>
    intro init
    simp only [List.foldl_cons, ih, rootStep_length, List.length_cons]
    omega

theorem MODULO_pos : 0 < MODULO := by decide

theorem one_lt_MODULO : 1 < MODULO := by decide

theorem MODULO_odd : MODULO % 2 = 1 := by decide

theorem MODULO_lt_U64 : MODULO < U64SIZE := by decide

/-! ### Transfer of the field operations to `ZMod MODULO`

Each operation of the embedding is a `Nat` computation; these lemmas relate
it to the corresponding ring operation of `ZMod MODULO`, and record that the
result is canonically reduced. -/

theorem fpAdd_lt (a b : Fp) : Fp.add a b < MODULO := Nat.mod_lt _ MODULO_pos

theorem fpSub_lt (a b : Fp) : Fp.sub a b < MODULO := Nat.mod_lt _ MODULO_pos

theorem fpMul_lt (a b : Fp) : Fp.mul a b < MODULO := Nat.mod_lt _ MODULO_pos

theorem fpFromNat_lt (a : Nat) : Fp.fromNat a < MODULO := Nat.mod_lt _ MODULO_pos

theorem fpAdd_cast (a b : Fp) :
    ((Fp.add a b : Nat) : ZMod MODULO) = (a : ZMod MODULO) + (b : ZMod MODULO) := by
  unfold Fp.add
  rw [ZMod.natCast_mod]
  push_cast
  ring

theorem fpMul_cast (a b : Fp) :
    ((Fp.mul a b : Nat) : ZMod MODULO) = (a : ZMod MODULO) * (b : ZMod MODULO) := by
  unfold Fp.mul
  rw [ZMod.natCast_mod]
  push_cast
  ring

theorem fpSub_cast (a b : Fp) (hb : b ≤ a + MODULO) :
    ((Fp.sub a b : Nat) : ZMod MODULO) = (a : ZMod MODULO) - (b : ZMod MODULO) := by
  unfold Fp.sub
  rw [ZMod.natCast_mod, Nat.cast_sub hb]
  push_cast [ZMod.natCast_self]
  ring

theorem fpNeg_cast (a : Fp) (ha : a ≤ MODULO) :
    ((Fp.neg a : Nat) : ZMod MODULO) = -(a : ZMod MODULO) := by
  unfold Fp.neg
  rw [Nat.cast_sub ha]
  simp [ZMod.natCast_self]

theorem fpFromNat_cast (a : Nat) : ((Fp.fromNat a : Nat) : ZMod MODULO) = (a : ZMod MODULO) :=
  ZMod.natCast_mod a MODULO

theorem fpFromNat_of_lt {a : Nat} (h : a < MODULO) : Fp.fromNat a = a := Nat.mod_eq_of_lt h

/-- Two canonically reduced values that agree in `ZMod MODULO` are equal. -/
theorem cast_inj_of_lt {a b : Nat} (ha : a < MODULO) (hb : b < MODULO)
    (h : (a : ZMod MODULO) = (b : ZMod MODULO)) : a = b := by
  have h1 : ((a : ZMod MODULO)).val = a := ZMod.val_cast_of_lt ha
  have h2 : ((b : ZMod MODULO)).val = b := ZMod.val_cast_of_lt hb
  rw [← h1, ← h2, h]

theorem powLoop_cast :
    ∀ (fuel : Nat) (result base : Fp) (p : Nat), p < 2 ^ fuel →
      ((Fp.powLoop fuel result base p : Nat) : ZMod MODULO) =
        (result : ZMod MODULO) * (base : ZMod MODULO) ^ p := by
  intro fuel
  induction fuel with
  | zero =>
    intro result base p hp
    have hp0 : p = 0 := by omega
    subst hp0
    simp [Fp.powLoop]
  | succ f ih =>
    intro result base p hp
    show ((if p = 0 then result
        else Fp.powLoop f (if p % 2 = 1 then Fp.mul result base else result)
          (Fp.mul base base) (p / 2) : Nat) : ZMod MODULO) = _
    by_cases hp0 : p = 0
    · subst hp0
      simp
    · rw [if_neg hp0]
      have hdiv : p / 2 < 2 ^ f := by
        have : 2 ^ (f + 1) = 2 ^ f * 2 := by ring
        omega
      rw [ih _ _ _ hdiv, fpMul_cast]
      by_cases hodd : p % 2 = 1
      · rw [if_pos hodd, fpMul_cast]
        have hp2 : p = 2 * (p / 2) + 1 := by omega
        have hpow : (base : ZMod MODULO) ^ p =
            ((base : ZMod MODULO) * base) ^ (p / 2) * base := by
          conv_lhs => rw [hp2]
          rw [pow_succ, pow_mul, sq]
        rw [hpow]
        ring
      · rw [if_neg hodd]
        have hp2 : p = 2 * (p / 2) := by omega
        have hpow : (base : ZMod MODULO) ^ p =
            ((base : ZMod MODULO) * base) ^ (p / 2) := by
          conv_lhs => rw [hp2]
          rw [pow_mul, sq]
        rw [hpow]

theorem fpPow_cast (a : Fp) (p : Nat) (hp : p < 2 ^ 32) :
    ((Fp.pow a p : Nat) : ZMod MODULO) = (a : ZMod MODULO) ^ p := by
  unfold Fp.pow
  rw [powLoop_cast 32 1 a p hp]
  simp

/-! ### Primality of the Goldilocks modulus -/

/-- The Goldilocks modulus is prime, by the Lucas primality criterion with
the multiplicative generator 7 and the factorization
`MODULO - 1 = 2^32 * 3 * 5 * 17 * 257 * 65537`. -/
theorem MODULO_prime : Nat.Prime MODULO := by
  have hcast : ∀ e : Nat, e < 2 ^ 64 →
      ((Fp.powLoop 64 1 7 e : Nat) : ZMod MODULO) = (7 : ZMod MODULO) ^ e := by
    intro e he
    rw [powLoop_cast 64 1 7 e he]
    push_cast
    ring
  refine lucas_primality MODULO 7 ?_ ?_
  · have h1 := hcast (MODULO - 1) (by decide)
    have h2 : Fp.powLoop 64 1 7 (MODULO - 1) = 1 := by decide
    rw [h2] at h1
    simpa using h1.symm
  · intro q hq hqdvd
    have hne : ∀ e : Nat, e < 2 ^ 64 → Fp.powLoop 64 1 7 e ≠ 1 →
        Fp.powLoop 64 1 7 e < MODULO → (7 : ZMod MODULO) ^ e ≠ 1 := by
      intro e he hne hlt heq
      apply hne
      apply cast_inj_of_lt hlt one_lt_MODULO
      rw [hcast e he, heq]
      simp
    have hfact : MODULO - 1 = 2 ^ 32 * (3 * (5 * (17 * (257 * 65537)))) := by decide
    rw [hfact] at hqdvd
    rw [hfact]
    rcases (Nat.Prime.dvd_mul hq).1 hqdvd with h | h
    · have h2 : q = 2 :=
        (Nat.prime_dvd_prime_iff_eq hq Nat.prime_two).1 (Nat.Prime.dvd_of_dvd_pow hq h)
      subst h2
      exact hne _ (by decide) (by decide) (by decide)
    rcases (Nat.Prime.dvd_mul hq).1 h with h | h
    · have h2 : q = 3 := (Nat.prime_dvd_prime_iff_eq hq (by norm_num)).1 h
      subst h2
      exact hne _ (by decide) (by decide) (by decide)
    rcases (Nat.Prime.dvd_mul hq).1 h with h | h
    · have h2 : q = 5 := (Nat.prime_dvd_prime_iff_eq hq (by norm_num)).1 h
      subst h2
      exact hne _ (by decide) (by decide) (by decide)
    rcases (Nat.Prime.dvd_mul hq).1 h with h | h
    · have h2 : q = 17 := (Nat.prime_dvd_prime_iff_eq hq (by norm_num)).1 h
      subst h2
      exact hne _ (by decide) (by decide) (by decide)
    rcases (Nat.Prime.dvd_mul hq).1 h with h | h
    · have h2 : q = 257 := (Nat.prime_dvd_prime_iff_eq hq (by norm_num)).1 h
      subst h2
      exact hne _ (by decide) (by decide) (by decide)
    · have h2 : q = 65537 := (Nat.prime_dvd_prime_iff_eq hq (by norm_num)).1 h
      subst h2
      exact hne _ (by decide) (by decide) (by decide)

instance : Fact (Nat.Prime MODULO) := ⟨MODULO_prime⟩

theorem two_ne_zero_zmod : (2 : ZMod MODULO) ≠ 0 := by
  intro h
  have h2 : ((2 : ℕ) : ZMod MODULO) = ((0 : ℕ) : ZMod MODULO) := by push_cast; exact h
  rw [ZMod.natCast_eq_natCast_iff] at h2
  have h3 : (2 : ℕ) % MODULO = 0 % MODULO := h2
  rw [Nat.zero_mod] at h3
  have h4 : (2 : ℕ) % MODULO = 2 := by decide
  omega

/-! ### Correctness of the binary extended-Euclidean inverse -/

/-- The carry-tracking halving of a cofactor computes `(s + MODULO) / 2`
exactly when `s` is odd, and `s / 2` when it is even. -/
theorem halveCofactor_eq (s : Nat) (hs : s < U64SIZE) :
    Fp.halveCofactor s = if s % 2 = 0 then s / 2 else (s + MODULO) / 2 := by
  unfold Fp.halveCofactor
  by_cases hpar : s % 2 = 0
  · rw [if_pos hpar, if_pos hpar]
  · rw [if_neg hpar, if_neg hpar]
    have hU : U64SIZE = 18446744073709551616 := by decide
    have hM : MODULO = 18446744069414584321 := by decide
    have h63 : (2 : Nat) ^ 63 = 9223372036854775808 := by decide
    have hModd : MODULO % 2 = 1 := MODULO_odd
    by_cases hcarry : U64SIZE ≤ s + MODULO
    · rw [if_pos hcarry]
      have hlow : (s + MODULO) % U64SIZE = s + MODULO - U64SIZE := by
        rw [Nat.mod_eq_sub_mod hcarry, Nat.mod_eq_of_lt (by omega)]
      rw [hlow]
      have hlt : (s + MODULO - U64SIZE) / 2 < 2 ^ 63 := by omega
      have hor : (s + MODULO - U64SIZE) / 2 ||| 1 <<< 63 = (s + MODULO - U64SIZE) / 2 + 2 ^ 63 := by
        have h1 : (1 : Nat) <<< 63 = 2 ^ 63 := by decide
        rw [h1, Nat.lor_comm]
        have h2 := Nat.mul_add_lt_is_or hlt 1
        simp only [Nat.mul_one] at h2
        omega
      rw [hor]
      omega
    · rw [if_neg hcarry]
      have hlow : (s + MODULO) % U64SIZE = s + MODULO := Nat.mod_eq_of_lt (by omega)
      rw [hlow]

theorem halveCofactor_lt (s : Nat) (hs : s < MODULO) : Fp.halveCofactor s < MODULO := by
  rw [halveCofactor_eq s (lt_trans hs MODULO_lt_U64)]
  have := MODULO_odd
  split <;> omega

theorem two_mul_halveCofactor (s : Nat) (hs : s < U64SIZE) :
    2 * Fp.halveCofactor s = s ∨ 2 * Fp.halveCofactor s = s + MODULO := by
  rw [halveCofactor_eq s hs]
  have := MODULO_odd
  by_cases hpar : s % 2 = 0
  · rw [if_pos hpar]; left; omega
  · rw [if_neg hpar]; right; omega

/-- The inner halving loop of `Fp::inverse`: with enough fuel it strips all
factors of two from a positive `v`, keeping the cofactor reduced and the
congruence `a * s ≡ v (mod MODULO)`. -/
theorem halveLoop_spec (a : Nat) :
    ∀ (fuel v s : Nat), 0 < v → v < 2 ^ fuel → s < MODULO →
      (a : ZMod MODULO) * (s : ZMod MODULO) = (v : ZMod MODULO) →
      (Fp.halveLoop fuel v s).1 % 2 = 1 ∧ 0 < (Fp.halveLoop fuel v s).1 ∧
        (Fp.halveLoop fuel v s).1 ∣ v ∧ (Fp.halveLoop fuel v s).2 < MODULO ∧
        (a : ZMod MODULO) * ((Fp.halveLoop fuel v s).2 : ZMod MODULO) =
          ((Fp.halveLoop fuel v s).1 : ZMod MODULO) := by
  intro fuel
  induction fuel with
  | zero => intro v s hv hvlt; omega
  | succ f ih =>
    intro v s hv hvlt hs hcong
    by_cases hpar : v % 2 = 0
    · have hstep : Fp.halveLoop (f + 1) v s = Fp.halveLoop f (v / 2) (Fp.halveCofactor s) := by
        show (if v % 2 = 0 then Fp.halveLoop f (v / 2) (Fp.halveCofactor s) else (v, s)) = _
        rw [if_pos hpar]
      rw [hstep]
      have hv2 : 0 < v / 2 := by omega
      have hv2lt : v / 2 < 2 ^ f := by
        have : 2 ^ (f + 1) = 2 ^ f * 2 := by ring
        omega
      have hs2 : Fp.halveCofactor s < MODULO := halveCofactor_lt s hs
      have hcong2 : (a : ZMod MODULO) * ((Fp.halveCofactor s : Nat) : ZMod MODULO) =
          ((v / 2 : Nat) : ZMod MODULO) := by
        have hsU : s < U64SIZE := lt_trans hs MODULO_lt_U64
        have hdouble : (2 : ZMod MODULO) * ((Fp.halveCofactor s : Nat) : ZMod MODULO) =
            (s : ZMod MODULO) := by
          rcases two_mul_halveCofactor s hsU with h | h
          · calc (2 : ZMod MODULO) * ((Fp.halveCofactor s : Nat) : ZMod MODULO)
                = ((2 * Fp.halveCofactor s : Nat) : ZMod MODULO) := by push_cast; ring
              _ = (s : ZMod MODULO) := by rw [h]
          · calc (2 : ZMod MODULO) * ((Fp.halveCofactor s : Nat) : ZMod MODULO)
                = ((2 * Fp.halveCofactor s : Nat) : ZMod MODULO) := by push_cast; ring
              _ = ((s + MODULO : Nat) : ZMod MODULO) := by rw [h]
              _ = (s : ZMod MODULO) := by push_cast [ZMod.natCast_self]; ring
        have hvdouble : (2 : ZMod MODULO) * ((v / 2 : Nat) : ZMod MODULO) =
            (v : ZMod MODULO) := by
          have h2 : 2 * (v / 2) = v := by omega
          calc (2 : ZMod MODULO) * ((v / 2 : Nat) : ZMod MODULO)
              = ((2 * (v / 2) : Nat) : ZMod MODULO) := by push_cast; ring
            _ = (v : ZMod MODULO) := by rw [h2]
        apply mul_left_cancel₀ two_ne_zero_zmod
        calc (2 : ZMod MODULO) * ((a : ZMod MODULO) * ((Fp.halveCofactor s : Nat) : ZMod MODULO))
            = (a : ZMod MODULO) * ((2 : ZMod MODULO) * ((Fp.halveCofactor s : Nat) : ZMod MODULO)) := by
              ring
          _ = (a : ZMod MODULO) * (s : ZMod MODULO) := by rw [hdouble]
          _ = (v : ZMod MODULO) := hcong
          _ = (2 : ZMod MODULO) * ((v / 2 : Nat) : ZMod MODULO) := hvdouble.symm
      obtain ⟨h1, h2, h3, h4, h5⟩ := ih (v / 2) (Fp.halveCofactor s) hv2 hv2lt hs2 hcong2
      exact ⟨h1, h2, dvd_trans h3 (Nat.div_dvd_of_dvd (Nat.dvd_of_mod_eq_zero hpar)), h4, h5⟩
    · have hstep : Fp.halveLoop (f + 1) v s = (v, s) := by
        show (if v % 2 = 0 then Fp.halveLoop f (v / 2) (Fp.halveCofactor s) else (v, s)) = _
        rw [if_neg hpar]
      rw [hstep]
      exact ⟨by omega, hv, dvd_rfl, hs, hcong⟩

theorem cofSub_eq (x y : Nat) (hx : x < MODULO) (hy : y < MODULO) :
    Fp.cofSub x y = if y ≤ x then x - y else x + MODULO - y := by
  unfold Fp.cofSub
  have hU : U64SIZE = 18446744073709551616 := by decide
  have hM : MODULO = 18446744069414584321 := by decide
  by_cases hb : x < y
  · rw [if_pos hb, if_neg (by omega : ¬ y ≤ x)]
    have h1 : (x + U64SIZE - y) % U64SIZE = x + U64SIZE - y := Nat.mod_eq_of_lt (by omega)
    rw [h1]
    have h2 : (x + U64SIZE - y + MODULO) % U64SIZE = x + U64SIZE - y + MODULO - U64SIZE := by
      rw [Nat.mod_eq_sub_mod (by omega), Nat.mod_eq_of_lt (by omega)]
    rw [h2]
    omega
  · rw [if_neg hb, if_pos (by omega : y ≤ x)]
    have h1 : (x + U64SIZE - y) % U64SIZE = x + U64SIZE - y - U64SIZE := by
      rw [Nat.mod_eq_sub_mod (by omega), Nat.mod_eq_of_lt (by omega)]
    rw [h1]
    omega

theorem cofSub_lt (x y : Nat) (hx : x < MODULO) (hy : y < MODULO) :
    Fp.cofSub x y < MODULO := by
  rw [cofSub_eq x y hx hy]
  split <;> omega

theorem cofSub_cast (x y : Nat) (hx : x < MODULO) (hy : y < MODULO) :
    ((Fp.cofSub x y : Nat) : ZMod MODULO) = (x : ZMod MODULO) - (y : ZMod MODULO) := by
  rw [cofSub_eq x y hx hy]
  by_cases h : y ≤ x
  · rw [if_pos h, Nat.cast_sub h]
  · rw [if_neg h, Nat.cast_sub (by omega : y ≤ x + MODULO)]
    push_cast [ZMod.natCast_self]
    ring

/-- Main induction for the outer loop of `Fp::inverse`: with fuel at least
`u + v`, the loop reaches a state with `u = 1` or `v = 1`, keeping the
cofactors reduced and the congruences `a*r ≡ u`, `a*s ≡ v (mod MODULO)`. -/
theorem inverseLoop_spec (a : Nat) :
    ∀ (fuel : Nat) (st : Fp.InvState),
      st.u + st.v ≤ fuel →
      st.r < MODULO → st.s < MODULO →
      (a : ZMod MODULO) * (st.r : ZMod MODULO) = (st.u : ZMod MODULO) →
      (a : ZMod MODULO) * (st.s : ZMod MODULO) = (st.v : ZMod MODULO) →
      (st.u = 1 ∨ st.v = 1 ∨
        (0 < st.u ∧ 0 < st.v ∧ st.u ≤ MODULO ∧ st.v ≤ MODULO ∧ Nat.gcd st.u st.v = 1)) →
      (Fp.inverseLoop fuel st).r < MODULO ∧ (Fp.inverseLoop fuel st).s < MODULO ∧
        (a : ZMod MODULO) * ((Fp.inverseLoop fuel st).r : ZMod MODULO) =
          ((Fp.inverseLoop fuel st).u : ZMod MODULO) ∧
        (a : ZMod MODULO) * ((Fp.inverseLoop fuel st).s : ZMod MODULO) =
          ((Fp.inverseLoop fuel st).v : ZMod MODULO) ∧
        ((Fp.inverseLoop fuel st).u = 1 ∨ (Fp.inverseLoop fuel st).v = 1) := by
  intro fuel
  induction fuel with
  | zero =>
    intro st hfuel hr hs hru hsv hdisj
    rcases hdisj with h | h | h <;> omega
  | succ f ih =>
    intro st hfuel hr hs hru hsv hdisj
    by_cases hstop : st.u = 1 ∨ st.v = 1
    · have hres : Fp.inverseLoop (f + 1) st = st := by
        show (if st.u = 1 ∨ st.v = 1 then st else _) = st
        rw [if_pos hstop]
      rw [hres]
      exact ⟨hr, hs, hru, hsv, hstop⟩
    · have hfull : 0 < st.u ∧ 0 < st.v ∧ st.u ≤ MODULO ∧ st.v ≤ MODULO ∧
          Nat.gcd st.u st.v = 1 := by
        rcases hdisj with h | h | h
        · exact absurd (Or.inl h) hstop
        · exact absurd (Or.inr h) hstop
        · exact h
      obtain ⟨hupos, hvpos, hule, hvle, hgcd⟩ := hfull
      have hMU : MODULO < 2 ^ 64 := MODULO_lt_U64
      obtain ⟨hv1odd, hv1pos, hv1dvd, hs1lt, hs1cong⟩ :=
        halveLoop_spec a 64 st.v st.s hvpos (by omega) hs hsv
      obtain ⟨hu1odd, hu1pos, hu1dvd, hr1lt, hr1cong⟩ :=
        halveLoop_spec a 64 st.u st.r hupos (by omega) hr hru
      set v1 := (Fp.halveLoop 64 st.v st.s).1 with hv1def
      set s1 := (Fp.halveLoop 64 st.v st.s).2 with hs1def
      set u1 := (Fp.halveLoop 64 st.u st.r).1 with hu1def
      set r1 := (Fp.halveLoop 64 st.u st.r).2 with hr1def
      have hv1le : v1 ≤ st.v := Nat.le_of_dvd hvpos hv1dvd
      have hu1le : u1 ≤ st.u := Nat.le_of_dvd hupos hu1dvd
      have hgcd1 : Nat.gcd u1 v1 = 1 := by
        have hdvd : Nat.gcd u1 v1 ∣ Nat.gcd st.u st.v :=
          Nat.dvd_gcd (dvd_trans (Nat.gcd_dvd_left u1 v1) hu1dvd)
            (dvd_trans (Nat.gcd_dvd_right u1 v1) hv1dvd)
        rw [hgcd] at hdvd
        exact Nat.dvd_one.mp hdvd
      have hres : Fp.inverseLoop (f + 1) st =
          (if u1 ≤ v1 then Fp.inverseLoop f ⟨v1 - u1, u1, Fp.cofSub s1 r1, r1⟩
           else Fp.inverseLoop f ⟨v1, u1 - v1, s1, Fp.cofSub r1 s1⟩) := by
        show (if st.u = 1 ∨ st.v = 1 then st else _) = _
        rw [if_neg hstop]
      rw [hres]
      by_cases hcmp : u1 ≤ v1
      · rw [if_pos hcmp]
        apply ih ⟨v1 - u1, u1, Fp.cofSub s1 r1, r1⟩
        · show u1 + (v1 - u1) ≤ f
          omega
        · exact hr1lt
        · exact cofSub_lt s1 r1 hs1lt hr1lt
        · exact hr1cong
        · show (a : ZMod MODULO) * ((Fp.cofSub s1 r1 : Nat) : ZMod MODULO) =
            ((v1 - u1 : Nat) : ZMod MODULO)
          rw [cofSub_cast s1 r1 hs1lt hr1lt, Nat.cast_sub hcmp, mul_sub, hs1cong, hr1cong]
        · show u1 = 1 ∨ v1 - u1 = 1 ∨
            (0 < u1 ∧ 0 < v1 - u1 ∧ u1 ≤ MODULO ∧ v1 - u1 ≤ MODULO ∧
              Nat.gcd u1 (v1 - u1) = 1)
          by_cases hu1 : u1 = 1
          · exact Or.inl hu1
          · right; right
            have hne : u1 ≠ v1 := by
              intro heq
              rw [heq, Nat.gcd_self] at hgcd1
              exact absurd (heq ▸ hgcd1) hu1
            refine ⟨by omega, by omega, by omega, by omega, ?_⟩
            rw [Nat.gcd_sub_self_right hcmp]
            exact hgcd1
      · rw [if_neg hcmp]
        apply ih ⟨v1, u1 - v1, s1, Fp.cofSub r1 s1⟩
        · show (u1 - v1) + v1 ≤ f
          omega
        · exact cofSub_lt r1 s1 hr1lt hs1lt
        · exact hs1lt
        · show (a : ZMod MODULO) * ((Fp.cofSub r1 s1 : Nat) : ZMod MODULO) =
            ((u1 - v1 : Nat) : ZMod MODULO)
          rw [cofSub_cast r1 s1 hr1lt hs1lt, Nat.cast_sub (by omega : v1 ≤ u1), mul_sub,
            hs1cong, hr1cong]
        · exact hs1cong
        · show u1 - v1 = 1 ∨ v1 = 1 ∨
            (0 < u1 - v1 ∧ 0 < v1 ∧ u1 - v1 ≤ MODULO ∧ v1 ≤ MODULO ∧
              Nat.gcd (u1 - v1) v1 = 1)
          by_cases hv1 : v1 = 1
          · exact Or.inr (Or.inl hv1)
          · right; right
            have hne : v1 ≠ u1 := by
              intro heq
              rw [← heq, Nat.gcd_self] at hgcd1
              exact absurd hgcd1 hv1
            refine ⟨by omega, by omega, by omega, by omega, ?_⟩
            rw [Nat.gcd_sub_self_left (by omega : v1 ≤ u1)]
            exact hgcd1

/-- Correctness of `Fp::inverse` on canonical nonzero inputs: the product
with the input is 1 and the result is canonically reduced. -/
theorem inverse_correct (a : Fp) (h0 : a ≠ 0) (hlt : a < MODULO) :
    Fp.mul a (Fp.inverse a) = 1 ∧ Fp.inverse a < MODULO := by
  have hdef : Fp.inverse a =
      (if (Fp.inverseLoop (MODULO + a) ⟨a, MODULO, 1, 0⟩).u = 1
       then Fp.fromNat (Fp.inverseLoop (MODULO + a) ⟨a, MODULO, 1, 0⟩).r
       else Fp.fromNat (Fp.inverseLoop (MODULO + a) ⟨a, MODULO, 1, 0⟩).s) := by
    unfold Fp.inverse
    rw [if_neg h0]
  have hgcd0 : Nat.gcd MODULO a = 1 := by
    have hndvd : ¬ MODULO ∣ a := by
      intro hdvd
      exact absurd (Nat.le_of_dvd (Nat.pos_of_ne_zero h0) hdvd) (Nat.not_le.2 hlt)
    exact (Nat.Prime.coprime_iff_not_dvd MODULO_prime).2 hndvd
  obtain ⟨hr, hs, hru, hsv, hexit⟩ :=
    inverseLoop_spec a (MODULO + a) ⟨a, MODULO, 1, 0⟩ (le_refl _)
      MODULO_pos one_lt_MODULO
      (by show (a : ZMod MODULO) * ((0 : Nat) : ZMod MODULO) = ((MODULO : Nat) : ZMod MODULO)
          simp [ZMod.natCast_self])
      (by show (a : ZMod MODULO) * ((1 : Nat) : ZMod MODULO) = (a : ZMod MODULO)
          simp)
      (Or.inr (Or.inr ⟨MODULO_pos, Nat.pos_of_ne_zero h0, le_refl _, le_of_lt hlt, hgcd0⟩))
  by_cases hu : (Fp.inverseLoop (MODULO + a) ⟨a, MODULO, 1, 0⟩).u = 1
  · rw [hdef, if_pos hu]
    constructor
    · apply cast_inj_of_lt (fpMul_lt _ _) one_lt_MODULO
      rw [fpMul_cast, fpFromNat_cast, hru, hu]
    · exact fpFromNat_lt _
  · have hv : (Fp.inverseLoop (MODULO + a) ⟨a, MODULO, 1, 0⟩).v = 1 := by
      rcases hexit with h | h
      · exact absurd h hu
      · exact h
    rw [hdef, if_neg hu]
    constructor
    · apply cast_inj_of_lt (fpMul_lt _ _) one_lt_MODULO
      rw [fpMul_cast, fpFromNat_cast, hsv, hv]
    · exact fpFromNat_lt _

theorem fpMul_zero (a : Fp) : Fp.mul a 0 = 0 := by unfold Fp.mul; simp

theorem fpZero_mul (a : Fp) : Fp.mul 0 a = 0 := by unfold Fp.mul; simp

/-- The last entry of the running-product array is the fold of the list. -/
theorem scanl_getD_last (l : List Fp) :
    ∀ init : Fp, (l.scanl Fp.mul init).getD l.length 0 = l.foldl Fp.mul init := by
  induction l with
  | nil => intro init; rfl
  | cons x rest ih =>
    intro init
    rw [List.scanl_cons, List.singleton_append, List.length_cons, List.getD_cons_succ,
      ih (Fp.mul init x), List.foldl_cons]

theorem foldl_mul_from_zero (l : List Fp) : l.foldl Fp.mul 0 = 0 := by
  induction l with
  | nil => rfl
  | cons x rest ih => rw [List.foldl_cons, fpZero_mul, ih]

theorem foldl_mul_zero_mem (l : List Fp) : ∀ init : Fp, 0 ∈ l → l.foldl Fp.mul init = 0 := by
  induction l with
  | nil => intro init h; simp at h
  | cons x rest ih =>
    intro init h
    rw [List.foldl_cons]
    rcases List.mem_cons.mp h with h | h
    · rw [← h, fpMul_zero]
      exact foldl_mul_from_zero rest
    · exact ih (Fp.mul init x) h

/-- With a zero running inverse, the reverse sweep of `multi_inv` emits 1
for zero inputs and 0 for nonzero inputs. -/
theorem multiInvRevLoop_zero (l : List (Fp × Fp)) :
    Fp.multiInvRevLoop l 0 = l.map (fun q => if q.1 = 0 then 1 else 0) := by
  induction l with
  | nil => rfl
  | cons hd rest ih =>
    obtain ⟨ai, partial_i⟩ := hd
    show (if ai = 0 then 1 else Fp.mul partial_i 0) ::
      Fp.multiInvRevLoop rest (Fp.mul 0 ai) = _
    rw [fpMul_zero, fpZero_mul, ih]
    rfl

theorem zip_map_fst (g : Fp → Fp) :
    ∀ l1 l2 : List Fp, l1.length ≤ l2.length →
      (l1.zip l2).map (fun q => g q.1) = l1.map g := by
  intro l1
  induction l1 with
  | nil => intro l2 h; rfl
  | cons x rest ih =>
    intro l2 h
    cases l2 with
    | nil => simp at h
    | cons y rest2 =>
      show g x :: (rest.zip rest2).map _ = g x :: rest.map g
      rw [ih rest2 (by simpa using h)]

/-- A successful consistency block implies the round-sum relation the
verifier is supposed to enforce. -/
theorem consistencyCheck_spec (s : SumcheckState) (p : UPolynomial) (res1 res2 : Fp)
    (s2 : SumcheckState) (hc : SumcheckProtocol.consistencyCheck s p res1 res2 = some s2) :
    (s.previous_step = none ∧ Fp.add res1 res2 = s.statement) ∨
    (∃ q prev_eval, s.previous_step = some q ∧
      q.eval [s.randomness.getLastD 0] = some prev_eval ∧ Fp.add res1 res2 = prev_eval) := by
  obtain ⟨poly, ic, rand, stmt, stp, prev⟩ := s
  cases prev with
  | none =>
    simp only [SumcheckProtocol.consistencyCheck] at hc
    split at hc
    · exact Or.inl ⟨rfl, by assumption⟩
    · exact Option.noConfusion hc
  | some q =>
    simp only [SumcheckProtocol.consistencyCheck] at hc
    split at hc
    · exact Option.noConfusion hc
    · split at hc
      next prev_eval heval =>
        split at hc
        · exact Or.inr ⟨q, prev_eval, rfl, heval, by assumption⟩
        · exact Option.noConfusion hc
      next heval => exact Option.noConfusion hc

/-- A first-round sum mismatch makes the consistency block abort. -/
theorem consistencyCheck_none_first (s : SumcheckState) (p : UPolynomial) (res1 res2 : Fp)
    (hprev : s.previous_step = none) (hsum : Fp.add res1 res2 ≠ s.statement) :
    SumcheckProtocol.consistencyCheck s p res1 res2 = none := by
  obtain ⟨poly, ic, rand, stmt, stp, prev⟩ := s
  cases prev with
  | none => exact if_neg hsum
  | some q => exact Option.noConfusion hprev

/-- A later-round sum mismatch makes the consistency block abort. -/
theorem consistencyCheck_none_later (s : SumcheckState) (p : UPolynomial) (res1 res2 : Fp)
    (q : UPolynomial) (prev_eval : Fp) (hprev : s.previous_step = some q)
    (heval : q.eval [s.randomness.getLastD 0] = some prev_eval)
    (hsum : Fp.add res1 res2 ≠ prev_eval) :
    SumcheckProtocol.consistencyCheck s p res1 res2 = none := by
  obtain ⟨poly, ic, rand, stmt, stp, prev⟩ := s
  cases prev with
  | none => exact Option.noConfusion hprev
  | some q0 =>
    have hq0 : q0 = q := by injection hprev
    subst hq0
    simp only [SumcheckProtocol.consistencyCheck]
    by_cases hlen : rand.length = 0
    · rw [if_pos hlen]
    · rw [if_neg hlen]
      have heval1 : q0.eval [rand.getLastD 0] = some prev_eval := heval
      rw [heval1]
      exact if_neg hsum

/-! ### Correctness of the polynomial long-division loop -/

theorem getD_zero_of_le (l : List Fp) (n : Nat) (h : l.length ≤ n) : l.getD n 0 = 0 := by
  rw [List.getD_eq_getElem?_getD, List.getElem?_eq_none h]
  rfl

theorem getD_eq_get (l : List Fp) (i : Nat) (h : i < l.length) : l.getD i 0 = l[i] := by
  rw [List.getD_eq_getElem?_getD, List.getElem?_eq_getElem h]
  rfl

theorem getD_lt_of_forall (q : List Fp) (hqlt : ∀ x ∈ q, x < MODULO) (i : Nat)
    (hi : i < q.length) : q.getD i 0 < MODULO := by
  rw [getD_eq_get q i hi]
  exact hqlt _ (List.getElem_mem hi)

theorem getD_take (l : List Fp) (t i : Nat) (ht : t ≤ l.length) :
    (l.take t).getD i 0 = if i < t then l.getD i 0 else 0 := by
  by_cases h : i < t
  · rw [if_pos h, List.getD_eq_getElem?_getD, List.getD_eq_getElem?_getD,
      List.getElem?_take_of_lt h]
  · rw [if_neg h]
    apply getD_zero_of_le
    rw [List.length_take]
    omega

theorem getD_map_range (f : Nat → Fp) (n j : Nat) (h : j < n) :
    ((List.range n).map f).getD j 0 = f j := by
  rw [List.getD_eq_getElem?_getD, List.getElem?_map, List.getElem?_range h]
  rfl

theorem take_succ_reverse (q : List Fp) (d : Nat) (hd : d < q.length) :
    (q.take (d + 1)).reverse = q.getD d 0 :: (q.take d).reverse := by
  rw [List.take_succ, List.getElem?_eq_getElem hd, getD_eq_get q d hd]
  simp

theorem foldl_fpAdd_cast (f : Nat → Fp) :
    ∀ (n : Nat) (init : Fp),
      ((((List.range n).foldl (fun acc i => Fp.add acc (f i)) init) : Nat) : ZMod MODULO) =
        (init : ZMod MODULO) + ∑ i ∈ Finset.range n, ((f i : Nat) : ZMod MODULO) := by
  intro n
  induction n with
  | zero => intro init; simp
  | succ k ih =>
    intro init
    rw [List.range_succ, List.foldl_append, List.foldl_cons, List.foldl_nil, fpAdd_cast,
      ih init, Finset.sum_range_succ]
    ring

theorem foldl_fpAdd_lt (f : Nat → Fp) (k : Nat) (init : Fp) :
    (List.range (k + 1)).foldl (fun acc i => Fp.add acc (f i)) init < MODULO := by
  rw [List.range_succ, List.foldl_append, List.foldl_cons, List.foldl_nil]
  exact fpAdd_lt _ _

theorem convEntry_lt (a b : List Fp) (k : Nat) : convEntry a b k < MODULO :=
  foldl_fpAdd_lt (fun i => Fp.mul (a.getD i 0) (b.getD (k - i) 0)) k 0

theorem convEntry_cast (a b : List Fp) (k : Nat) :
    ((convEntry a b k : Nat) : ZMod MODULO) =
      ∑ i ∈ Finset.range (k + 1),
        ((a.getD i 0 : Nat) : ZMod MODULO) * ((b.getD (k - i) 0 : Nat) : ZMod MODULO) := by
  unfold convEntry
  rw [foldl_fpAdd_cast (fun i => Fp.mul (a.getD i 0) (b.getD (k - i) 0)) (k + 1) 0]
  simp [fpMul_cast]

/-- Peeling the top retained coefficient out of a truncated convolution. -/
theorem convEntry_take_succ (q b : List Fp) (d k : Nat) (hd : d < q.length) :
    ((convEntry (q.take (d + 1)) b k : Nat) : ZMod MODULO) =
      ((convEntry (q.take d) b k : Nat) : ZMod MODULO) +
        (if d ≤ k then ((q.getD d 0 : Nat) : ZMod MODULO) *
          ((b.getD (k - d) 0 : Nat) : ZMod MODULO) else 0) := by
  rw [convEntry_cast, convEntry_cast]
  have hle1 : d + 1 ≤ q.length := hd
  have hle0 : d ≤ q.length := by omega
  by_cases hdk : d ≤ k
  · rw [if_pos hdk]
    have hpt : ∀ i ∈ Finset.range (k + 1),
        (((q.take (d + 1)).getD i 0 : Nat) : ZMod MODULO) *
            ((b.getD (k - i) 0 : Nat) : ZMod MODULO) =
          (((q.take d).getD i 0 : Nat) : ZMod MODULO) *
              ((b.getD (k - i) 0 : Nat) : ZMod MODULO) +
            (if i = d then ((q.getD d 0 : Nat) : ZMod MODULO) *
              ((b.getD (k - d) 0 : Nat) : ZMod MODULO) else 0) := by
      intro i _
      by_cases hid : i = d
      · subst hid
        rw [if_pos rfl, getD_take q (i + 1) i hle1, if_pos (by omega),
          getD_take q i i hle0, if_neg (by omega)]
        push_cast
        ring
      · rw [if_neg hid, getD_take q (d + 1) i hle1, getD_take q d i hle0, add_zero]
        by_cases hlt : i < d
        · rw [if_pos (by omega), if_pos hlt]
        · rw [if_neg (by omega), if_neg hlt]
    rw [Finset.sum_congr rfl hpt, Finset.sum_add_distrib,
      Finset.sum_ite_eq' (Finset.range (k + 1)) d
        (fun _ => ((q.getD d 0 : Nat) : ZMod MODULO) *
          ((b.getD (k - d) 0 : Nat) : ZMod MODULO)),
      if_pos (Finset.mem_range.mpr (by omega))]
  · rw [if_neg hdk, add_zero]
    apply Finset.sum_congr rfl
    intro i hi
    have hik : i < k + 1 := Finset.mem_range.mp hi
    rw [getD_take q (d + 1) i hle1, getD_take q d i hle0, if_pos (by omega),
      if_pos (by omega)]

/-- The array entry the division loop reads at its current top position is
the product of the next true quotient coefficient with the divisor's leading
coefficient. -/
theorem convEntry_take_top (q b : List Fp) (d : Nat) (hd : d < q.length)
    (hb : 1 ≤ b.length) :
    convEntry (q.take (d + 1)) b (d + (b.length - 1)) =
      Fp.mul (q.getD d 0) (b.getD (b.length - 1) 0) := by
  apply cast_inj_of_lt (convEntry_lt _ _ _) (fpMul_lt _ _)
  rw [convEntry_take_succ q b d _ hd, fpMul_cast]
  have h1 : ((convEntry (q.take d) b (d + (b.length - 1)) : Nat) : ZMod MODULO) = 0 := by
    rw [convEntry_cast]
    apply Finset.sum_eq_zero
    intro i _
    by_cases hid : i < d
    · rw [getD_zero_of_le b _ (by omega)]
      simp
    · rw [getD_take q d i (by omega), if_neg hid]
      simp
  rw [h1, if_pos (by omega : d ≤ d + (b.length - 1)),
    (by omega : d + (b.length - 1) - d = b.length - 1), zero_add]

theorem foldl_set_idx_length (v : Nat → Fp → Fp) :
    ∀ (idxs : List Nat) (acc : List Fp),
      (idxs.foldl (fun a i => a.set i (v i (a.getD i 0))) acc).length = acc.length := by
  intro idxs
  induction idxs with
  | nil => intro acc; rfl
  | cons i rest ih => intro acc; rw [List.foldl_cons, ih, List.length_set]

/-- A fold of single writes at pairwise-distinct indices: each surviving
entry is the written value of the original entry. -/
theorem foldl_set_idx_getD (v : Nat → Fp → Fp) :
    ∀ (idxs : List Nat) (acc : List Fp), idxs.Nodup → ∀ j,
      (idxs.foldl (fun a i => a.set i (v i (a.getD i 0))) acc).getD j 0 =
        if j ∈ idxs ∧ j < acc.length then v j (acc.getD j 0) else acc.getD j 0 := by
  intro idxs
  induction idxs with
  | nil =>
    intro acc _ j
    rw [List.foldl_nil, if_neg (by simp)]
  | cons i rest ih =>
    intro acc hnodup j
    obtain ⟨hni, hnd⟩ := List.nodup_cons.mp hnodup
    rw [List.foldl_cons, ih _ hnd j]
    by_cases hji : j = i
    · subst hji
      rw [if_neg (fun hc => hni hc.1)]
      by_cases hjl : j < acc.length
      · rw [if_pos ⟨List.mem_cons_self j rest, hjl⟩, List.getD_eq_getElem?_getD,
          List.getElem?_set_self hjl]
        rfl
      · rw [if_neg (fun hc => absurd hc.2 hjl),
          List.set_eq_of_length_le (Nat.not_lt.mp hjl)]
    · have hgd : (acc.set i (v i (acc.getD i 0))).getD j 0 = acc.getD j 0 := by
        rw [List.getD_eq_getElem?_getD, List.getElem?_set_ne (Ne.symm hji),
          ← List.getD_eq_getElem?_getD]
      rw [List.length_set, hgd]
      by_cases hm : j ∈ rest ∧ j < acc.length
      · rw [if_pos hm, if_pos ⟨List.mem_cons_of_mem i hm.1, hm.2⟩]
      · rw [if_neg hm,
          if_neg (fun hc => hm ⟨(List.mem_cons.mp hc.1).resolve_left hji, hc.2⟩)]

theorem mem_shift_range (bpos d j : Nat) :
    j ∈ (List.range (bpos + 1)).reverse.map (fun i => d + i) ↔ d ≤ j ∧ j ≤ d + bpos := by
  simp only [List.mem_map, List.mem_reverse, List.mem_range]
  constructor
  · rintro ⟨i, hi, hij⟩
    have hij2 : d + i = j := hij
    omega
  · intro h
    refine ⟨j - d, by omega, ?_⟩
    show d + (j - d) = j
    omega

theorem nodup_shift_range (bpos d : Nat) :
    ((List.range (bpos + 1)).reverse.map (fun i => d + i)).Nodup := by
  apply List.Nodup.map
  · intro x y hxy
    have hxy2 : d + x = d + y := hxy
    omega
  · exact List.nodup_reverse.mpr (List.nodup_range (bpos + 1))

theorem divSubtract_eq_foldl_idx (aCopy b : List Fp) (bpos d : Nat) (quot : Fp) :
    UPolynomial.divSubtract aCopy b bpos d quot =
      ((List.range (bpos + 1)).reverse.map (fun i => d + i)).foldl
        (fun a j => a.set j (subVal b quot d j (a.getD j 0))) aCopy := by
  rw [List.foldl_map]
  have hfun : (fun (a : List Fp) (i : Nat) =>
      a.set (d + i) (subVal b quot d (d + i) (a.getD (d + i) 0))) =
      (fun (a : List Fp) (i : Nat) =>
        a.set (d + i) (Fp.sub (a.getD (d + i) 0) (Fp.mul (b.getD i 0) quot))) := by
    funext a i
    unfold subVal
    rw [Nat.add_sub_cancel_left]
  rw [hfun]
  rfl

theorem divSubtract_length (aCopy b : List Fp) (bpos d : Nat) (quot : Fp) :
    (UPolynomial.divSubtract aCopy b bpos d quot).length = aCopy.length := by
  rw [divSubtract_eq_foldl_idx]
  exact foldl_set_idx_length _ _ _

theorem divSubtract_getD (aCopy b : List Fp) (bpos d : Nat) (quot : Fp) (j : Nat) :
    (UPolynomial.divSubtract aCopy b bpos d quot).getD j 0 =
      if (d ≤ j ∧ j ≤ d + bpos) ∧ j < aCopy.length then
        Fp.sub (aCopy.getD j 0) (Fp.mul (b.getD (j - d) 0) quot)
      else aCopy.getD j 0 := by
  rw [divSubtract_eq_foldl_idx,
    foldl_set_idx_getD (subVal b quot d) _ _ (nodup_shift_range bpos d) j]
  simp only [mem_shift_range]
  rfl

theorem fpDiv_mul_cancel (x w : Fp) (hx : x < MODULO) (hw0 : w ≠ 0) (hw : w < MODULO) :
    Fp.div (Fp.mul x w) w = x := by
  unfold Fp.div
  rw [fpFromNat_of_lt (fpMul_lt x w), fpFromNat_of_lt hw]
  obtain ⟨hinv, _⟩ := inverse_correct w hw0 hw
  apply cast_inj_of_lt (fpMul_lt _ _) hx
  rw [fpMul_cast, fpMul_cast]
  have hwinv : (w : ZMod MODULO) * ((Fp.inverse w : Nat) : ZMod MODULO) = 1 := by
    have h2 := congrArg (fun z : Nat => (z : ZMod MODULO)) hinv
    simpa [fpMul_cast] using h2
  calc (x : ZMod MODULO) * (w : ZMod MODULO) * ((Fp.inverse w : Nat) : ZMod MODULO)
      = (x : ZMod MODULO) * ((w : ZMod MODULO) * ((Fp.inverse w : Nat) : ZMod MODULO)) := by
        ring
    _ = (x : ZMod MODULO) := by rw [hwinv, mul_one]

/-- One subtraction pass of the division loop turns the stage-`d` residual
array (product of the quotient truncated above `d` with the divisor) into
the stage-`d-1` residual array. -/
theorem divSubtract_stage (q b : List Fp) (d : Nat) (hd : d < q.length) :
    UPolynomial.divSubtract
        ((List.range (q.length + b.length - 1)).map (convEntry (q.take (d + 1)) b))
        b (b.length - 1) d (q.getD d 0) =
      (List.range (q.length + b.length - 1)).map (convEntry (q.take d) b) := by
  apply List.ext_getElem
  · rw [divSubtract_length, List.length_map, List.length_map]
  · intro j h1 h2
    have hjn : j < q.length + b.length - 1 := by
      have := h2
      rwa [List.length_map, List.length_range] at this
    rw [← getD_eq_get _ j h1, ← getD_eq_get _ j h2, divSubtract_getD,
      getD_map_range _ _ _ hjn]
    by_cases hwin : d ≤ j ∧ j ≤ d + (b.length - 1)
    · rw [if_pos ⟨hwin, by rw [List.length_map, List.length_range]; exact hjn⟩,
        getD_map_range _ _ _ hjn]
      apply cast_inj_of_lt (fpSub_lt _ _) (convEntry_lt _ _ _)
      rw [fpSub_cast _ _ (le_trans (le_of_lt (fpMul_lt _ _)) (Nat.le_add_left MODULO _)),
        fpMul_cast, convEntry_take_succ q b d j hd, if_pos hwin.1]
      ring
    · rw [if_neg (fun hc => hwin hc.1), getD_map_range _ _ _ hjn]
      apply cast_inj_of_lt (convEntry_lt _ _ _) (convEntry_lt _ _ _)
      rw [convEntry_take_succ q b d j hd]
      by_cases hdj : d ≤ j
      · rw [if_pos hdj, getD_zero_of_le b (j - d) (by omega)]
        simp
      · rw [if_neg hdj, add_zero]

theorem divLoop_zero (b : List Fp) (bpos : Nat) (aCopy output : List Fp) :
    UPolynomial.divLoop b bpos 0 aCopy output =
      if bpos = 0 then none
      else some (output ++ [Fp.div (aCopy.getD bpos 0) (b.getD bpos 0)]) := rfl

theorem divLoop_succ (b : List Fp) (bpos d : Nat) (aCopy output : List Fp) :
    UPolynomial.divLoop b bpos (d + 1) aCopy output =
      UPolynomial.divLoop b bpos d
        (UPolynomial.divSubtract aCopy b bpos (d + 1)
          (Fp.div (aCopy.getD (d + 1 + bpos) 0) (b.getD bpos 0)))
        (output ++ [Fp.div (aCopy.getD (d + 1 + bpos) 0) (b.getD bpos 0)]) := rfl

/-- Main induction for the division loop on an exactly-divisible dividend:
starting from the stage-`d` residual array it emits the top `d + 1` true
quotient coefficients, highest degree first. -/
theorem divLoop_spec (q b : List Fp) (hql : 0 < q.length) (hqlt : ∀ x ∈ q, x < MODULO)
    (hb2 : 2 ≤ b.length) (hbl0 : b.getD (b.length - 1) 0 ≠ 0)
    (hbllt : b.getD (b.length - 1) 0 < MODULO) :
    ∀ (d : Nat), d < q.length → ∀ (output : List Fp),
      UPolynomial.divLoop b (b.length - 1) d
          ((List.range (q.length + b.length - 1)).map (convEntry (q.take (d + 1)) b))
          output =
        some (output ++ (q.take (d + 1)).reverse) := by
  intro d
  induction d with
  | zero =>
    intro hd output
    rw [divLoop_zero, if_neg (by omega : ¬ b.length - 1 = 0),
      getD_map_range _ _ _ (by omega)]
    have htop := convEntry_take_top q b 0 hd (by omega)
    have hrev := take_succ_reverse q 0 hd
    simp only [Nat.zero_add] at htop hrev ⊢
    rw [htop, fpDiv_mul_cancel _ _ (getD_lt_of_forall q hqlt 0 hd) hbl0 hbllt, hrev]
    rfl
  | succ d ih =>
    intro hd output
    rw [divLoop_succ, getD_map_range _ _ _ (by omega),
      (by omega : d + 1 + (b.length - 1) = (d + 1) + (b.length - 1)),
      convEntry_take_top q b (d + 1) hd (by omega),
      fpDiv_mul_cancel _ _ (getD_lt_of_forall q hqlt (d + 1) hd) hbl0 hbllt,
      divSubtract_stage q b (d + 1) hd,
      ih (by omega) (output ++ [q.getD (d + 1) 0]),
      take_succ_reverse q (d + 1) hd]
    simp

/-- Exact division: dividing the convolution `q * b` by `b` returns exactly
the reversed quotient coefficient list. -/
theorem div_exact (q b : List Fp) (hq : q ≠ []) (hqlt : ∀ x ∈ q, x < MODULO)
    (hb2 : 2 ≤ b.length) (hbl0 : b.getD (b.length - 1) 0 ≠ 0)
    (hbllt : b.getD (b.length - 1) 0 < MODULO) :
    UPolynomial.div ⟨polyMulLow q b⟩ ⟨b⟩ = some ⟨q.reverse⟩ := by
  have hql : 0 < q.length := List.length_pos.mpr hq
  have hcond : ¬ (q.length = 0 ∨ b.length = 0) := by
    push_neg
    exact ⟨by omega, by omega⟩
  have hlen : (polyMulLow q b).length = q.length + b.length - 1 := by
    unfold polyMulLow
    rw [if_neg hcond, List.length_map, List.length_range]
  have harr : polyMulLow q b =
      (List.range (q.length + b.length - 1)).map (convEntry (q.take (q.length - 1 + 1)) b) := by
    unfold polyMulLow
    rw [if_neg hcond, (by omega : q.length - 1 + 1 = q.length), List.take_length]
  show (if (polyMulLow q b).length < b.length then some (⟨[]⟩ : UPolynomial)
    else if b.length = 0 then none
    else (UPolynomial.divLoop b (b.length - 1)
        ((polyMulLow q b).length - b.length) (polyMulLow q b) []).map
      (fun output => (⟨output⟩ : UPolynomial))) = some (⟨q.reverse⟩ : UPolynomial)
  rw [if_neg (by omega : ¬ (polyMulLow q b).length < b.length),
    if_neg (by omega : ¬ b.length = 0), hlen,
    (by omega : q.length + b.length - 1 - b.length = q.length - 1), harr,
    divLoop_spec q b hql hqlt hb2 hbl0 hbllt (q.length - 1) (by omega) [],
    (by omega : q.length - 1 + 1 = q.length), List.take_length, List.nil_append]
  rfl

/-! ## Two-point interpolation machinery (C2) -/

theorem fpDiv_lt (a b : Fp) : Fp.div a b < MODULO := fpMul_lt _ _

theorem fpMul_leM (a b : Fp) : Fp.mul a b ≤ MODULO := le_of_lt (fpMul_lt a b)

theorem fpSub_castM (a b : Fp) (hb : b ≤ MODULO) :
    ((Fp.sub a b : Nat) : ZMod MODULO) = (a : ZMod MODULO) - (b : ZMod MODULO) :=
  fpSub_cast a b (le_trans hb (Nat.le_add_left _ _))

/-- Division by the canonical one is a no-op up to the cast: the inverse of 1
computes to 1, so `Fp.div z 1 = Fp.mul (Fp.fromNat z) 1`. -/
theorem fpDiv_one_cast (z : Fp) :
    ((Fp.div z 1 : Nat) : ZMod MODULO) = (z : ZMod MODULO) := by
  have h1 : Fp.inverse (Fp.fromNat 1) = 1 := by decide
  unfold Fp.div
  rw [h1, fpMul_cast, fpFromNat_cast, Nat.cast_one, mul_one]

theorem fpOne_ne_zero : (1 : Fp) ≠ 0 := by decide

theorem multiInvRevLoop_cons (ai pi inv : Fp) (rest : List (Fp × Fp)) :
    Fp.multiInvRevLoop ((ai, pi) :: rest) inv =
      (if ai = 0 then 1 else Fp.mul pi inv) :: Fp.multiInvRevLoop rest (Fp.mul inv ai) := rfl

theorem bCell_pos {coeff y y_slice : Fp} {b : List Fp} {j : Nat}
    (h1 : coeff ≠ 0) (h2 : y ≠ 0) :
    UPolynomial.bCell coeff y y_slice b j = UPolynomial.bStep b j (Fp.mul coeff y_slice) :=
  if_pos ⟨h1, h2⟩

theorem bCell_coeff_zero {coeff y y_slice : Fp} {b : List Fp} {j : Nat}
    (h1 : coeff = 0) :
    UPolynomial.bCell coeff y y_slice b j = some b :=
  if_neg (fun hc => hc.1 h1)

theorem bStep_nil_zero (r : Fp) : UPolynomial.bStep [] 0 r = some [Fp.add 0 r] := rfl

theorem bStep_one_zero (c r : Fp) : UPolynomial.bStep [c] 0 r = some [Fp.add c r] := rfl

theorem bStep_one_one (c r : Fp) : UPolynomial.bStep [c] 1 r = some [c, Fp.add 0 r] := rfl

theorem bStep_two_zero (c d r : Fp) :
    UPolynomial.bStep [c, d] 0 r = some [Fp.add c r, d] := rfl

theorem bStep_two_one (c d r : Fp) :
    UPolynomial.bStep [c, d] 1 r = some [c, Fp.add d r] := rfl

/-- The accumulation loops on two points, unfolded to a chain of guarded
cells. -/
theorem bAssemble_two (n01 n11 y0 y1 u0 u1 : Fp) :
    UPolynomial.bAssemble [⟨[1, n01]⟩, ⟨[1, n11]⟩] [y0, y1] [u0, u1] =
      ((UPolynomial.bCell 1 y0 (Fp.mul y0 u0) [] 0).bind fun b =>
        UPolynomial.bCell n01 y0 (Fp.mul y0 u0) b 1).bind fun b =>
      (UPolynomial.bCell 1 y1 (Fp.mul y1 u1) b 0).bind fun b2 =>
      UPolynomial.bCell n11 y1 (Fp.mul y1 u1) b2 1 := rfl

theorem lagNum_cast_self (u w : Fp) (hu : u ≤ MODULO) :
    ((lagNum u w u : Nat) : ZMod MODULO) = -(w : ZMod MODULO) := by
  unfold lagNum
  rw [fpDiv_one_cast, fpSub_castM _ _ (fpMul_leM _ _), fpSub_castM _ _ (fpMul_leM _ _),
    fpSub_castM _ _ (fpMul_leM _ _), fpMul_cast, fpMul_cast, fpMul_cast,
    fpNeg_cast u hu, Nat.cast_zero, Nat.cast_one]
  ring

theorem lagNum_cast_other (u w : Fp) (hw : w ≤ MODULO) :
    ((lagNum u w w : Nat) : ZMod MODULO) = -(u : ZMod MODULO) := by
  unfold lagNum
  rw [fpDiv_one_cast, fpSub_castM _ _ (fpMul_leM _ _), fpSub_castM _ _ (fpMul_leM _ _),
    fpSub_castM _ _ (fpMul_leM _ _), fpMul_cast, fpMul_cast, fpMul_cast,
    fpNeg_cast w hw, Nat.cast_zero, Nat.cast_one]
  ring

theorem lagDen_cast_self (u w : Fp) (hu : u ≤ MODULO) :
    ((lagDen (lagNum u w u) u : Nat) : ZMod MODULO)
      = (u : ZMod MODULO) - (w : ZMod MODULO) := by
  unfold lagDen
  rw [fpAdd_cast, fpAdd_cast, fpMul_cast, fpPow_cast u 1 (by decide),
    lagNum_cast_self u w hu, Nat.cast_zero, Nat.cast_one]
  ring

theorem lagDen_cast_other (u w : Fp) (hw : w ≤ MODULO) :
    ((lagDen (lagNum u w w) w : Nat) : ZMod MODULO)
      = (w : ZMod MODULO) - (u : ZMod MODULO) := by
  unfold lagDen
  rw [fpAdd_cast, fpAdd_cast, fpMul_cast, fpPow_cast w 1 (by decide),
    lagNum_cast_other u w hw, Nat.cast_zero, Nat.cast_one]
  ring

theorem lagP_lt (u w : Fp) : lagP u w < MODULO := fpMul_lt _ _

theorem lagP_cast (u w : Fp) (hu : u ≤ MODULO) (hw : w ≤ MODULO) :
    ((lagP u w : Nat) : ZMod MODULO)
      = ((u : ZMod MODULO) - (w : ZMod MODULO)) * ((w : ZMod MODULO) - (u : ZMod MODULO)) := by
  unfold lagP
  rw [fpMul_cast, fpMul_cast, lagDen_cast_self u w hu, lagDen_cast_other u w hw,
    Nat.cast_one, one_mul]

theorem lagP_ne (u w : Fp) (hu : u < MODULO) (hw : w < MODULO) (hne2 : u ≠ w) :
    lagP u w ≠ 0 := by
  intro h
  have hc : ((lagP u w : Nat) : ZMod MODULO) = ((0 : Nat) : ZMod MODULO) := by rw [h]
  rw [lagP_cast u w (le_of_lt hu) (le_of_lt hw), Nat.cast_zero] at hc
  have hcc : (u : ZMod MODULO) ≠ (w : ZMod MODULO) :=
    fun he => hne2 (cast_inj_of_lt hu hw he)
  rcases mul_eq_zero.mp hc with h1 | h1
  · exact hcc (sub_eq_zero.mp h1)
  · exact hcc (sub_eq_zero.mp h1).symm

theorem lagU0_key (u w : Fp) (hu : u < MODULO) (hw : w < MODULO) (hne2 : u ≠ w) :
    ((lagU0 u w : Nat) : ZMod MODULO) * ((u : ZMod MODULO) - (w : ZMod MODULO)) = 1 := by
  have hPinv := (inverse_correct (lagP u w) (lagP_ne u w hu hw hne2) (lagP_lt u w)).1
  have hIc : ((lagP u w : Nat) : ZMod MODULO) *
      ((Fp.inverse (lagP u w) : Nat) : ZMod MODULO) = 1 := by
    rw [← fpMul_cast, hPinv, Nat.cast_one]
  rw [lagP_cast u w (le_of_lt hu) (le_of_lt hw)] at hIc
  unfold lagU0
  rw [fpMul_cast, fpMul_cast, lagDen_cast_other u w (le_of_lt hw), Nat.cast_one, one_mul]
  linear_combination hIc

theorem lagU1_key (u w : Fp) (hu : u < MODULO) (hw : w < MODULO) (hne2 : u ≠ w) :
    ((lagU1 u w : Nat) : ZMod MODULO) * ((w : ZMod MODULO) - (u : ZMod MODULO)) = 1 := by
  have hPinv := (inverse_correct (lagP u w) (lagP_ne u w hu hw hne2) (lagP_lt u w)).1
  have hIc : ((lagP u w : Nat) : ZMod MODULO) *
      ((Fp.inverse (lagP u w) : Nat) : ZMod MODULO) = 1 := by
    rw [← fpMul_cast, hPinv, Nat.cast_one]
  rw [lagP_cast u w (le_of_lt hu) (le_of_lt hw)] at hIc
  unfold lagU1
  rw [fpMul_cast, fpMul_cast, lagDen_cast_self u w (le_of_lt hu), Nat.cast_one, one_mul]
  linear_combination hIc

theorem lagNum_self_eq_zero (u w : Fp) (hu : u ≤ MODULO) (h : w = 0) :
    lagNum u w u = 0 := by
  apply cast_inj_of_lt (fpDiv_lt _ _) MODULO_pos
  show ((lagNum u w u : Nat) : ZMod MODULO) = ((0 : Nat) : ZMod MODULO)
  rw [lagNum_cast_self u w hu, h, Nat.cast_zero, neg_zero]

theorem lagNum_self_ne_zero (u w : Fp) (hu : u ≤ MODULO) (hw : w < MODULO) (h : w ≠ 0) :
    lagNum u w u ≠ 0 := by
  intro h0
  have hc : ((lagNum u w u : Nat) : ZMod MODULO) = ((0 : Nat) : ZMod MODULO) := by rw [h0]
  rw [lagNum_cast_self u w hu, Nat.cast_zero, neg_eq_zero] at hc
  exact h (cast_inj_of_lt hw MODULO_pos (by rw [hc, Nat.cast_zero]))

theorem lagNum_other_eq_zero (u w : Fp) (hw : w ≤ MODULO) (h : u = 0) :
    lagNum u w w = 0 := by
  apply cast_inj_of_lt (fpDiv_lt _ _) MODULO_pos
  show ((lagNum u w w : Nat) : ZMod MODULO) = ((0 : Nat) : ZMod MODULO)
  rw [lagNum_cast_other u w hw, h, Nat.cast_zero, neg_zero]

theorem lagNum_other_ne_zero (u w : Fp) (hw : w ≤ MODULO) (hu : u < MODULO) (h : u ≠ 0) :
    lagNum u w w ≠ 0 := by
  intro h0
  have hc : ((lagNum u w w : Nat) : ZMod MODULO) = ((0 : Nat) : ZMod MODULO) := by rw [h0]
  rw [lagNum_cast_other u w hw, Nat.cast_zero, neg_eq_zero] at hc
  exact h (cast_inj_of_lt hu MODULO_pos (by rw [hc, Nat.cast_zero]))

/-- The algebraic core of two-point Lagrange interpolation in the field. -/
theorem lagrange_two_eval (xa xb ya yb ua ub ca cb : ZMod MODULO)
    (hka : ua * (xa - xb) = 1) (hkb : ub * (xb - xa) = 1)
    (hca : ca = ya * ua + yb * ub)
    (hcb : cb = -xb * (ya * ua) + -xa * (yb * ub)) :
    ca * xa + cb = ya ∧ ca * xb + cb = yb := by
  subst hca
  subst hcb
  constructor
  · linear_combination ya * hka
  · linear_combination yb * hkb

/-! ## Claim theorems -/

/-- C2 counterexample: for a single point (n = 1, trivially pairwise-distinct
x-coordinates) `interpolate` returns no polynomial at all: the numerator
`root / (X - x_0)` has a single coefficient, so evaluating it at `x_0`
passes one variable to a constant polynomial and the arity assertion in
`eval` panics (modelled as `none`), instead of producing the degree-0
polynomial through `y_0`. -/
theorem interpolate_single_point_aborts :
    UPolynomial.interpolate [((0 : Fp), (1 : Fp))] = none := by decide

/-- C2 amended: for exactly two interpolation points with canonically reduced
coordinates, distinct x-coordinates and both y-values nonzero, `interpolate`
returns a two-coefficient polynomial — degree 1, strictly less than n = 2 —
whose evaluation gives back `y0` at `x0` and `y1` at `x1`. -/
theorem interpolate_two_points (x0 x1 y0 y1 : Fp)
    (hx0 : x0 < MODULO) (hx1 : x1 < MODULO) (hy0lt : y0 < MODULO) (hy1lt : y1 < MODULO)
    (hne : x0 ≠ x1) (hy0 : y0 ≠ 0) (hy1 : y1 ≠ 0) :
    ∃ b0 b1 : Fp, UPolynomial.interpolate [(x0, y0), (x1, y1)] = some ⟨[b0, b1]⟩ ∧
      UPolynomial.degree ⟨[b0, b1]⟩ = some 1 ∧
      UPolynomial.eval ⟨[b0, b1]⟩ [x0] = some y0 ∧
      UPolynomial.eval ⟨[b0, b1]⟩ [x1] = some y1 := by
  have hx0le : x0 ≤ MODULO := le_of_lt hx0
  have hx1le : x1 ≤ MODULO := le_of_lt hx1
  have hinterp : UPolynomial.interpolate [(x0, y0), (x1, y1)] =
      (UPolynomial.bAssemble [⟨[1, lagNum x0 x1 x0]⟩, ⟨[1, lagNum x0 x1 x1]⟩] [y0, y1]
        (Fp.multi_inv [lagDen (lagNum x0 x1 x0) x0, lagDen (lagNum x0 x1 x1) x1])).bind
        (fun b => some (⟨b⟩ : UPolynomial)) := rfl
  have hD0ne : lagDen (lagNum x0 x1 x0) x0 ≠ 0 := by
    intro h
    have hc : ((lagDen (lagNum x0 x1 x0) x0 : Nat) : ZMod MODULO) =
        ((0 : Nat) : ZMod MODULO) := by rw [h]
    rw [lagDen_cast_self x0 x1 hx0le, Nat.cast_zero] at hc
    exact hne (cast_inj_of_lt hx0 hx1 (sub_eq_zero.mp hc))
  have hD1ne : lagDen (lagNum x0 x1 x1) x1 ≠ 0 := by
    intro h
    have hc : ((lagDen (lagNum x0 x1 x1) x1 : Nat) : ZMod MODULO) =
        ((0 : Nat) : ZMod MODULO) := by rw [h]
    rw [lagDen_cast_other x0 x1 hx1le, Nat.cast_zero] at hc
    exact hne (cast_inj_of_lt hx1 hx0 (sub_eq_zero.mp hc)).symm
  have hmulti : Fp.multi_inv [lagDen (lagNum x0 x1 x0) x0, lagDen (lagNum x0 x1 x1) x1]
      = [lagU0 x0 x1, lagU1 x0 x1] := by
    show (Fp.multiInvRevLoop
        [(lagDen (lagNum x0 x1 x1) x1, Fp.mul 1 (lagDen (lagNum x0 x1 x0) x0)),
         (lagDen (lagNum x0 x1 x0) x0, 1)]
        (Fp.inverse (lagP x0 x1))).reverse = [lagU0 x0 x1, lagU1 x0 x1]
    rw [multiInvRevLoop_cons, if_neg hD1ne, multiInvRevLoop_cons, if_neg hD0ne]
    rfl
  have hk0 := lagU0_key x0 x1 hx0 hx1 hne
  have hk1 := lagU1_key x0 x1 hx0 hx1 hne
  have hB0c : ((Fp.add (Fp.add 0 (Fp.mul 1 (Fp.mul y0 (lagU0 x0 x1))))
      (Fp.mul 1 (Fp.mul y1 (lagU1 x0 x1))) : Nat) : ZMod MODULO)
      = (y0 : ZMod MODULO) * ((lagU0 x0 x1 : Nat) : ZMod MODULO)
        + (y1 : ZMod MODULO) * ((lagU1 x0 x1 : Nat) : ZMod MODULO) := by
    simp only [fpAdd_cast, fpMul_cast, Nat.cast_zero, Nat.cast_one]
    ring
  by_cases hx1z : x1 = 0
  · -- second x-coordinate is zero: the j = 1 cell of the first point is skipped
    have hx0nz : x0 ≠ 0 := fun h => hne (h.trans hx1z.symm)
    have hn0z : lagNum x0 x1 x0 = 0 := lagNum_self_eq_zero x0 x1 hx0le hx1z
    have hn1 : lagNum x0 x1 x1 ≠ 0 := lagNum_other_ne_zero x0 x1 hx1le hx0 hx0nz
    have hassem : UPolynomial.bAssemble [⟨[1, lagNum x0 x1 x0]⟩, ⟨[1, lagNum x0 x1 x1]⟩]
        [y0, y1] [lagU0 x0 x1, lagU1 x0 x1] =
        some [Fp.add (Fp.add 0 (Fp.mul 1 (Fp.mul y0 (lagU0 x0 x1))))
                (Fp.mul 1 (Fp.mul y1 (lagU1 x0 x1))),
              Fp.add 0 (Fp.mul (lagNum x0 x1 x1) (Fp.mul y1 (lagU1 x0 x1)))] := by
      rw [bAssemble_two, bCell_pos fpOne_ne_zero hy0, bStep_nil_zero]
      simp only [Option.some_bind]
      rw [bCell_coeff_zero hn0z]
      simp only [Option.some_bind]
      rw [bCell_pos fpOne_ne_zero hy1, bStep_one_zero]
      simp only [Option.some_bind]
      rw [bCell_pos hn1 hy1, bStep_one_one]
    have hfull : UPolynomial.interpolate [(x0, y0), (x1, y1)] =
        some ⟨[Fp.add (Fp.add 0 (Fp.mul 1 (Fp.mul y0 (lagU0 x0 x1))))
                 (Fp.mul 1 (Fp.mul y1 (lagU1 x0 x1))),
               Fp.add 0 (Fp.mul (lagNum x0 x1 x1) (Fp.mul y1 (lagU1 x0 x1)))]⟩ := by
      rw [hinterp, hmulti, hassem]
      rfl
    have hx1c : ((x1 : Nat) : ZMod MODULO) = 0 := by rw [hx1z, Nat.cast_zero]
    have hB1c : ((Fp.add 0 (Fp.mul (lagNum x0 x1 x1) (Fp.mul y1 (lagU1 x0 x1))) : Nat)
        : ZMod MODULO)
        = -(x1 : ZMod MODULO) * ((y0 : ZMod MODULO) * ((lagU0 x0 x1 : Nat) : ZMod MODULO))
          + -(x0 : ZMod MODULO) * ((y1 : ZMod MODULO) * ((lagU1 x0 x1 : Nat) : ZMod MODULO)) := by
      simp only [fpAdd_cast, fpMul_cast, lagNum_cast_other x0 x1 hx1le, Nat.cast_zero, hx1c]
      ring
    refine ⟨_, _, hfull, rfl, ?_, ?_⟩
    · rw [show UPolynomial.eval ⟨[Fp.add (Fp.add 0 (Fp.mul 1 (Fp.mul y0 (lagU0 x0 x1))))
            (Fp.mul 1 (Fp.mul y1 (lagU1 x0 x1))),
          Fp.add 0 (Fp.mul (lagNum x0 x1 x1) (Fp.mul y1 (lagU1 x0 x1)))]⟩ [x0]
          = some (Fp.add (Fp.add 0 (Fp.mul (Fp.add (Fp.add 0 (Fp.mul 1 (Fp.mul y0 (lagU0 x0 x1))))
              (Fp.mul 1 (Fp.mul y1 (lagU1 x0 x1)))) (Fp.pow x0 1)))
            (Fp.add 0 (Fp.mul (lagNum x0 x1 x1) (Fp.mul y1 (lagU1 x0 x1))))) from rfl]
      refine congrArg some ?_
      apply cast_inj_of_lt (fpAdd_lt _ _) hy0lt
      rw [fpAdd_cast, fpAdd_cast, fpMul_cast, fpPow_cast x0 1 (by decide),
        Nat.cast_zero, zero_add, pow_one]
      exact (lagrange_two_eval _ _ _ _ _ _ _ _ hk0 hk1 hB0c hB1c).1
    · rw [show UPolynomial.eval ⟨[Fp.add (Fp.add 0 (Fp.mul 1 (Fp.mul y0 (lagU0 x0 x1))))
            (Fp.mul 1 (Fp.mul y1 (lagU1 x0 x1))),
          Fp.add 0 (Fp.mul (lagNum x0 x1 x1) (Fp.mul y1 (lagU1 x0 x1)))]⟩ [x1]
          = some (Fp.add (Fp.add 0 (Fp.mul (Fp.add (Fp.add 0 (Fp.mul 1 (Fp.mul y0 (lagU0 x0 x1))))
              (Fp.mul 1 (Fp.mul y1 (lagU1 x0 x1)))) (Fp.pow x1 1)))
            (Fp.add 0 (Fp.mul (lagNum x0 x1 x1) (Fp.mul y1 (lagU1 x0 x1))))) from rfl]
      refine congrArg some ?_
      apply cast_inj_of_lt (fpAdd_lt _ _) hy1lt
      rw [fpAdd_cast, fpAdd_cast, fpMul_cast, fpPow_cast x1 1 (by decide),
        Nat.cast_zero, zero_add, pow_one]
      exact (lagrange_two_eval _ _ _ _ _ _ _ _ hk0 hk1 hB0c hB1c).2
  · by_cases hx0z : x0 = 0
    · -- first x-coordinate is zero: the j = 1 cell of the second point is skipped
      have hn0 : lagNum x0 x1 x0 ≠ 0 := lagNum_self_ne_zero x0 x1 hx0le hx1 hx1z
      have hn1z : lagNum x0 x1 x1 = 0 := lagNum_other_eq_zero x0 x1 hx1le hx0z
      have hassem : UPolynomial.bAssemble [⟨[1, lagNum x0 x1 x0]⟩, ⟨[1, lagNum x0 x1 x1]⟩]
          [y0, y1] [lagU0 x0 x1, lagU1 x0 x1] =
          some [Fp.add (Fp.add 0 (Fp.mul 1 (Fp.mul y0 (lagU0 x0 x1))))
                  (Fp.mul 1 (Fp.mul y1 (lagU1 x0 x1))),
                Fp.add 0 (Fp.mul (lagNum x0 x1 x0) (Fp.mul y0 (lagU0 x0 x1)))] := by
        rw [bAssemble_two, bCell_pos fpOne_ne_zero hy0, bStep_nil_zero]
        simp only [Option.some_bind]
        rw [bCell_pos hn0 hy0, bStep_one_one]
        simp only [Option.some_bind]
        rw [bCell_pos fpOne_ne_zero hy1, bStep_two_zero]
        simp only [Option.some_bind]
        rw [bCell_coeff_zero hn1z]
      have hfull : UPolynomial.interpolate [(x0, y0), (x1, y1)] =
          some ⟨[Fp.add (Fp.add 0 (Fp.mul 1 (Fp.mul y0 (lagU0 x0 x1))))
                   (Fp.mul 1 (Fp.mul y1 (lagU1 x0 x1))),
                 Fp.add 0 (Fp.mul (lagNum x0 x1 x0) (Fp.mul y0 (lagU0 x0 x1)))]⟩ := by
        rw [hinterp, hmulti, hassem]
        rfl
      have hx0c : ((x0 : Nat) : ZMod MODULO) = 0 := by rw [hx0z, Nat.cast_zero]
      have hB1c : ((Fp.add 0 (Fp.mul (lagNum x0 x1 x0) (Fp.mul y0 (lagU0 x0 x1))) : Nat)
          : ZMod MODULO)
          = -(x1 : ZMod MODULO) * ((y0 : ZMod MODULO) * ((lagU0 x0 x1 : Nat) : ZMod MODULO))
            + -(x0 : ZMod MODULO) * ((y1 : ZMod MODULO) * ((lagU1 x0 x1 : Nat) : ZMod MODULO)) := by
        simp only [fpAdd_cast, fpMul_cast, lagNum_cast_self x0 x1 hx0le, Nat.cast_zero, hx0c]
        ring
      refine ⟨_, _, hfull, rfl, ?_, ?_⟩
      · rw [show UPolynomial.eval ⟨[Fp.add (Fp.add 0 (Fp.mul 1 (Fp.mul y0 (lagU0 x0 x1))))
              (Fp.mul 1 (Fp.mul y1 (lagU1 x0 x1))),
            Fp.add 0 (Fp.mul (lagNum x0 x1 x0) (Fp.mul y0 (lagU0 x0 x1)))]⟩ [x0]
            = some (Fp.add (Fp.add 0 (Fp.mul (Fp.add (Fp.add 0 (Fp.mul 1 (Fp.mul y0 (lagU0 x0 x1))))
                (Fp.mul 1 (Fp.mul y1 (lagU1 x0 x1)))) (Fp.pow x0 1)))
              (Fp.add 0 (Fp.mul (lagNum x0 x1 x0) (Fp.mul y0 (lagU0 x0 x1))))) from rfl]
        refine congrArg some ?_
        apply cast_inj_of_lt (fpAdd_lt _ _) hy0lt
        rw [fpAdd_cast, fpAdd_cast, fpMul_cast, fpPow_cast x0 1 (by decide),
          Nat.cast_zero, zero_add, pow_one]
        exact (lagrange_two_eval _ _ _ _ _ _ _ _ hk0 hk1 hB0c hB1c).1
      · rw [show UPolynomial.eval ⟨[Fp.add (Fp.add 0 (Fp.mul 1 (Fp.mul y0 (lagU0 x0 x1))))
              (Fp.mul 1 (Fp.mul y1 (lagU1 x0 x1))),
            Fp.add 0 (Fp.mul (lagNum x0 x1 x0) (Fp.mul y0 (lagU0 x0 x1)))]⟩ [x1]
            = some (Fp.add (Fp.add 0 (Fp.mul (Fp.add (Fp.add 0 (Fp.mul 1 (Fp.mul y0 (lagU0 x0 x1))))
                (Fp.mul 1 (Fp.mul y1 (lagU1 x0 x1)))) (Fp.pow x1 1)))
              (Fp.add 0 (Fp.mul (lagNum x0 x1 x0) (Fp.mul y0 (lagU0 x0 x1))))) from rfl]
        refine congrArg some ?_
        apply cast_inj_of_lt (fpAdd_lt _ _) hy1lt
        rw [fpAdd_cast, fpAdd_cast, fpMul_cast, fpPow_cast x1 1 (by decide),
          Nat.cast_zero, zero_add, pow_one]
        exact (lagrange_two_eval _ _ _ _ _ _ _ _ hk0 hk1 hB0c hB1c).2
    · -- both x-coordinates nonzero: all four cells fire
      have hn0 : lagNum x0 x1 x0 ≠ 0 := lagNum_self_ne_zero x0 x1 hx0le hx1 hx1z
      have hn1 : lagNum x0 x1 x1 ≠ 0 := lagNum_other_ne_zero x0 x1 hx1le hx0 hx0z
      have hassem : UPolynomial.bAssemble [⟨[1, lagNum x0 x1 x0]⟩, ⟨[1, lagNum x0 x1 x1]⟩]
          [y0, y1] [lagU0 x0 x1, lagU1 x0 x1] =
          some [Fp.add (Fp.add 0 (Fp.mul 1 (Fp.mul y0 (lagU0 x0 x1))))
                  (Fp.mul 1 (Fp.mul y1 (lagU1 x0 x1))),
                Fp.add (Fp.add 0 (Fp.mul (lagNum x0 x1 x0) (Fp.mul y0 (lagU0 x0 x1))))
                  (Fp.mul (lagNum x0 x1 x1) (Fp.mul y1 (lagU1 x0 x1)))] := by
        rw [bAssemble_two, bCell_pos fpOne_ne_zero hy0, bStep_nil_zero]
        simp only [Option.some_bind]
        rw [bCell_pos hn0 hy0, bStep_one_one]
        simp only [Option.some_bind]
        rw [bCell_pos fpOne_ne_zero hy1, bStep_two_zero]
        simp only [Option.some_bind]
        rw [bCell_pos hn1 hy1, bStep_two_one]
      have hfull : UPolynomial.interpolate [(x0, y0), (x1, y1)] =
          some ⟨[Fp.add (Fp.add 0 (Fp.mul 1 (Fp.mul y0 (lagU0 x0 x1))))
                   (Fp.mul 1 (Fp.mul y1 (lagU1 x0 x1))),
                 Fp.add (Fp.add 0 (Fp.mul (lagNum x0 x1 x0) (Fp.mul y0 (lagU0 x0 x1))))
                   (Fp.mul (lagNum x0 x1 x1) (Fp.mul y1 (lagU1 x0 x1)))]⟩ := by
        rw [hinterp, hmulti, hassem]
        rfl
      have hB1c : ((Fp.add (Fp.add 0 (Fp.mul (lagNum x0 x1 x0) (Fp.mul y0 (lagU0 x0 x1))))
          (Fp.mul (lagNum x0 x1 x1) (Fp.mul y1 (lagU1 x0 x1))) : Nat) : ZMod MODULO)
          = -(x1 : ZMod MODULO) * ((y0 : ZMod MODULO) * ((lagU0 x0 x1 : Nat) : ZMod MODULO))
            + -(x0 : ZMod MODULO) * ((y1 : ZMod MODULO) * ((lagU1 x0 x1 : Nat) : ZMod MODULO)) := by
        simp only [fpAdd_cast, fpMul_cast, lagNum_cast_self x0 x1 hx0le,
          lagNum_cast_other x0 x1 hx1le, Nat.cast_zero]
        ring
      refine ⟨_, _, hfull, rfl, ?_, ?_⟩
      · rw [show UPolynomial.eval ⟨[Fp.add (Fp.add 0 (Fp.mul 1 (Fp.mul y0 (lagU0 x0 x1))))
              (Fp.mul 1 (Fp.mul y1 (lagU1 x0 x1))),
            Fp.add (Fp.add 0 (Fp.mul (lagNum x0 x1 x0) (Fp.mul y0 (lagU0 x0 x1))))
              (Fp.mul (lagNum x0 x1 x1) (Fp.mul y1 (lagU1 x0 x1)))]⟩ [x0]
            = some (Fp.add (Fp.add 0 (Fp.mul (Fp.add (Fp.add 0 (Fp.mul 1 (Fp.mul y0 (lagU0 x0 x1))))
                (Fp.mul 1 (Fp.mul y1 (lagU1 x0 x1)))) (Fp.pow x0 1)))
              (Fp.add (Fp.add 0 (Fp.mul (lagNum x0 x1 x0) (Fp.mul y0 (lagU0 x0 x1))))
                (Fp.mul (lagNum x0 x1 x1) (Fp.mul y1 (lagU1 x0 x1))))) from rfl]
        refine congrArg some ?_
        apply cast_inj_of_lt (fpAdd_lt _ _) hy0lt
        rw [fpAdd_cast, fpAdd_cast, fpMul_cast, fpPow_cast x0 1 (by decide),
          Nat.cast_zero, zero_add, pow_one]
        exact (lagrange_two_eval _ _ _ _ _ _ _ _ hk0 hk1 hB0c hB1c).1
      · rw [show UPolynomial.eval ⟨[Fp.add (Fp.add 0 (Fp.mul 1 (Fp.mul y0 (lagU0 x0 x1))))
              (Fp.mul 1 (Fp.mul y1 (lagU1 x0 x1))),
            Fp.add (Fp.add 0 (Fp.mul (lagNum x0 x1 x0) (Fp.mul y0 (lagU0 x0 x1))))
              (Fp.mul (lagNum x0 x1 x1) (Fp.mul y1 (lagU1 x0 x1)))]⟩ [x1]
            = some (Fp.add (Fp.add 0 (Fp.mul (Fp.add (Fp.add 0 (Fp.mul 1 (Fp.mul y0 (lagU0 x0 x1))))
                (Fp.mul 1 (Fp.mul y1 (lagU1 x0 x1)))) (Fp.pow x1 1)))
              (Fp.add (Fp.add 0 (Fp.mul (lagNum x0 x1 x0) (Fp.mul y0 (lagU0 x0 x1))))
                (Fp.mul (lagNum x0 x1 x1) (Fp.mul y1 (lagU1 x0 x1))))) from rfl]
        refine congrArg some ?_
        apply cast_inj_of_lt (fpAdd_lt _ _) hy1lt
        rw [fpAdd_cast, fpAdd_cast, fpMul_cast, fpPow_cast x1 1 (by decide),
          Nat.cast_zero, zero_add, pow_one]
        exact (lagrange_two_eval _ _ _ _ _ _ _ _ hk0 hk1 hB0c hB1c).2

/-- C2 witness: the repository's own interpolation test, points
(0, 44) and (1, 52). -/
theorem interpolate_two_points_witness :
    ((0 : Fp) < MODULO ∧ (1 : Fp) < MODULO ∧ (44 : Fp) < MODULO ∧ (52 : Fp) < MODULO ∧
      (0 : Fp) ≠ 1 ∧ (44 : Fp) ≠ 0 ∧ (52 : Fp) ≠ 0) ∧
    ∃ b0 b1 : Fp,
      UPolynomial.interpolate [((0 : Fp), (44 : Fp)), ((1 : Fp), (52 : Fp))] = some ⟨[b0, b1]⟩ ∧
      UPolynomial.degree ⟨[b0, b1]⟩ = some 1 ∧
      UPolynomial.eval ⟨[b0, b1]⟩ [(0 : Fp)] = some 44 ∧
      UPolynomial.eval ⟨[b0, b1]⟩ [(1 : Fp)] = some 52 :=
  ⟨⟨by decide, by decide, by decide, by decide, by decide, by decide, by decide⟩,
    interpolate_two_points 0 1 44 52 (by decide) (by decide) (by decide) (by decide)
      (by decide) (by decide) (by decide)⟩

/-- C5 counterexample: read everything in the single declared highest-first
convention.  Dividend `[1, MODULO-1, 0]` is `X^2 - X`, divisor `[1, 0]` is
`X`, and the first conjunct shows the divisor exactly divides it (quotient
`[1, MODULO-1]`, i.e. `X - 1`).  But the division routine outputs `[0, 0]`,
and `[0, 0]` times the divisor is the zero polynomial, not the dividend: in
the claimed uniform convention the reconstruction identity fails. -/
theorem division_convention_counterexample :
    (polyMulLow ([1, MODULO - 1] : List Fp).reverse ([1, 0] : List Fp).reverse).reverse =
      [1, MODULO - 1, 0] ∧
    UPolynomial.div ⟨[1, MODULO - 1, 0]⟩ ⟨[1, 0]⟩ = some ⟨[0, 0]⟩ ∧
    (polyMulLow ([0, 0] : List Fp).reverse ([1, 0] : List Fp).reverse).reverse ≠
      [1, MODULO - 1, 0] := by
  decide

/-- C5 amended: the division identity holds in the conventions the code
actually uses.  Dividend and divisor are lowest-degree-first; the divisor
has at least two coefficients and a nonzero canonical leading (last-index)
coefficient; the dividend is an exact product with canonical quotient
coefficients.  The quotient is then emitted highest-degree-first, and
reversing it and multiplying by the divisor reconstructs the dividend. -/
theorem division_reconstructs_dividend (q b : List Fp) (hq : q ≠ [])
    (hqlt : ∀ x ∈ q, x < MODULO) (hb2 : 2 ≤ b.length)
    (hbl0 : b.getD (b.length - 1) 0 ≠ 0) (hbllt : b.getD (b.length - 1) 0 < MODULO) :
    ∃ out : List Fp, UPolynomial.div ⟨polyMulLow q b⟩ ⟨b⟩ = some ⟨out⟩ ∧
      polyMulLow out.reverse b = polyMulLow q b := by
  refine ⟨q.reverse, div_exact q b hq hqlt hb2 hbl0 hbllt, ?_⟩
  rw [List.reverse_reverse]

/-- C5 witness: `q = 2 + 3X`, `b = 1 + X`: the dividend is `[2, 5, 3]`, the
emitted quotient is `[3, 2]`, and its reversal times the divisor gives the
dividend back. -/
theorem division_reconstructs_dividend_witness :
    ([2, 3] : List Fp) ≠ [] ∧ (∀ x ∈ ([2, 3] : List Fp), x < MODULO) ∧
    2 ≤ ([1, 1] : List Fp).length ∧
    ([1, 1] : List Fp).getD (([1, 1] : List Fp).length - 1) 0 ≠ 0 ∧
    ([1, 1] : List Fp).getD (([1, 1] : List Fp).length - 1) 0 < MODULO ∧
    (∃ out : List Fp,
      UPolynomial.div ⟨polyMulLow [2, 3] [1, 1]⟩ ⟨[1, 1]⟩ = some ⟨out⟩ ∧
      polyMulLow out.reverse [1, 1] = polyMulLow [2, 3] [1, 1]) :=
  ⟨by decide, by decide, by decide, by decide, by decide,
    division_reconstructs_dividend [2, 3] [1, 1] (by decide) (by decide) (by decide)
      (by decide) (by decide)⟩

/-- C3: for canonically reduced field elements, `a + (-a) = 0`;
`a * inverse(a) = 1` for nonzero `a`; and `(a / b) * b = a` for nonzero `b`. -/
theorem field_algebra_identities (a b : Fp) (ha : a < MODULO) (hb : b < MODULO) :
    Fp.add a (Fp.neg a) = 0 ∧
    (a ≠ 0 → Fp.mul a (Fp.inverse a) = 1) ∧
    (b ≠ 0 → Fp.mul (Fp.div a b) b = a) := by
  refine ⟨?_, fun h0 => (inverse_correct a h0 ha).1, fun hb0 => ?_⟩
  · unfold Fp.add Fp.neg
    have h1 : a + (MODULO - a) = MODULO := Nat.add_sub_cancel' (le_of_lt ha)
    rw [h1, Nat.mod_self]
  · unfold Fp.div
    rw [fpFromNat_of_lt ha, fpFromNat_of_lt hb]
    obtain ⟨hinv, hinvlt⟩ := inverse_correct b hb0 hb
    apply cast_inj_of_lt (fpMul_lt _ _) ha
    rw [fpMul_cast, fpMul_cast]
    have hbinv : (b : ZMod MODULO) * ((Fp.inverse b : Nat) : ZMod MODULO) = 1 := by
      have h2 := congrArg (fun z : Nat => (z : ZMod MODULO)) hinv
      simpa [fpMul_cast] using h2
    calc (a : ZMod MODULO) * ((Fp.inverse b : Nat) : ZMod MODULO) * (b : ZMod MODULO)
        = (a : ZMod MODULO) * ((b : ZMod MODULO) * ((Fp.inverse b : Nat) : ZMod MODULO)) := by
          ring
      _ = (a : ZMod MODULO) := by rw [hbinv, mul_one]

/-- C3 witness: the three identities at the concrete inputs `a = 2`,
`b = 3`. -/
theorem field_algebra_identities_witness :
    (2 : Fp) < MODULO ∧ (3 : Fp) < MODULO ∧ (2 : Fp) ≠ 0 ∧ (3 : Fp) ≠ 0 ∧
    Fp.add 2 (Fp.neg 2) = 0 ∧ Fp.mul 2 (Fp.inverse 2) = 1 ∧
    Fp.mul (Fp.div 2 3) 3 = 2 :=
  ⟨by decide, by decide, by decide, by decide,
    (field_algebra_identities 2 3 (by decide) (by decide)).1,
    (field_algebra_identities 2 3 (by decide) (by decide)).2.1 (by decide),
    (field_algebra_identities 2 3 (by decide) (by decide)).2.2 (by decide)⟩

/-- C9: whenever the input of `multi_inv` contains a zero, every zero entry
is mapped to 1 and every nonzero entry is mapped to 0 (the zero poisons the
running product, whose inverse is the zero sentinel), so no nonzero entry
receives its true inverse. -/
theorem multi_inv_zero_poisons (a : List Fp) (h : 0 ∈ a) :
    Fp.multi_inv a = a.map (fun x => if x = 0 then 1 else 0) := by
  unfold Fp.multi_inv
  have hprod : (a.scanl Fp.mul 1).getD a.length 0 = 0 := by
    rw [scanl_getD_last]
    exact foldl_mul_zero_mem a 1 h
  rw [hprod]
  have hinv0 : Fp.inverse 0 = 0 := rfl
  rw [hinv0, multiInvRevLoop_zero, List.map_reverse, List.reverse_reverse]
  have hlen : a.length ≤ ((a.scanl Fp.mul 1).take a.length).length := by
    rw [List.length_take, List.length_scanl]
    exact Nat.le_min.mpr ⟨le_refl _, Nat.le_succ _⟩
  exact zip_map_fst (fun x => if x = 0 then 1 else 0) a _ hlen

/-- C9 witness: on the input `[0, 3]` the batch inverse returns `[1, 0]`. -/
theorem multi_inv_zero_poisons_witness :
    (0 : Fp) ∈ [(0 : Fp), 3] ∧ Fp.multi_inv [0, 3] = [1, 0] :=
  ⟨by decide, (multi_inv_zero_poisons [0, 3] (by decide)).trans (by decide)⟩

/-- C4: the claim asserts every arithmetic operation applied to canonically
reduced inputs returns a canonically reduced result; the code violates this:
negation of the canonical input 0 returns `MODULO` itself, which is not in
`[0, MODULO)`. -/
theorem neg_zero_not_reduced :
    Fp.neg 0 = MODULO ∧ ¬ Fp.neg 0 < MODULO := by decide

/-- C6: the claim asserts duplicated x-coordinates make `interpolate` return
the empty sentinel, but the guard can never fire: the root polynomial always
has `points.len() + 1` coefficients (first conjunct), and on the duplicated
input `[(1,2),(1,3)]` the code returns the non-empty polynomial
`[5, MODULO - 5]` instead of the sentinel. -/
theorem interpolate_duplicate_x_not_detected :
    (∀ xs : List Fp,
      ((UPolynomial.zero_at_given_x xs).coefficients.length ≠ xs.length + 1) = False) ∧
    UPolynomial.interpolate [(1, 2), (1, 3)] = some ⟨[5, MODULO - 5]⟩ ∧
    (⟨[5, MODULO - 5]⟩ : UPolynomial) ≠ ⟨[]⟩ := by
  refine ⟨?_, by decide, by decide⟩
  intro xs
  simp [zero_at_given_x_length]

/-- C8: on the statement polynomial with coefficients `[2,3,5,7]` and powers
`[1,1,1]`, the hypercube sum with no fixed variables is 96 and with the
first variable fixed to 2 it is 60. -/
theorem sum_over_hyper_cube_test_vectors :
    MPolynomial.sum_over_hyper_cube ⟨[2, 3, 5, 7], [1, 1, 1]⟩ none = some 96 ∧
    MPolynomial.sum_over_hyper_cube ⟨[2, 3, 5, 7], [1, 1, 1]⟩ (some [2]) = some 60 := by
  decide

/-- C7: a verify call in a running (not yet completed) interaction whose
round polynomial has degree strictly greater than the statement polynomial's
individual degree aborts the run, producing no successor state (hence no
consistency check can pass and no state update survives). -/
theorem verify_degree_bound_aborts (s : SumcheckState) (p : UPolynomial) (sample : Fp)
    (hrun : s.interaction_completed = false) (d : Nat) (hdeg : p.degree = some d)
    (hgt : s.polynomial.degree_ind < d) :
    SumcheckProtocol.verify s (some p) sample = none := by
  have h1 : ¬ d ≤ s.polynomial.degree_ind := Nat.not_le.2 hgt
  simp [SumcheckProtocol.verify, hrun, hdeg, h1]

/-- C7 witness: a degree-2 round polynomial against the degree-1 statement
`2x + 3y + 5z + 7` aborts verification. -/
theorem verify_degree_bound_aborts_witness :
    (SumcheckProtocol.new ⟨[2, 3, 5, 7], [1, 1, 1]⟩).interaction_completed = false ∧
    UPolynomial.degree ⟨[1, 2, 3]⟩ = some 2 ∧
    (MPolynomial.degree_ind ⟨[2, 3, 5, 7], [1, 1, 1]⟩) < 2 ∧
    SumcheckProtocol.verify (SumcheckProtocol.new ⟨[2, 3, 5, 7], [1, 1, 1]⟩)
      (some ⟨[1, 2, 3]⟩) 0 = none :=
  ⟨by decide, by decide, by decide,
    verify_degree_bound_aborts _ _ 0 (by decide) 2 (by decide) (by decide)⟩

/-- C1: in a running interaction, a verify call that receives a round
polynomial succeeds only if `p(0) + p(1)` equals the cached claimed sum
(first round, no previous round polynomial stored) or the previous round
polynomial evaluated at the latest sampled challenge (later rounds); and
whenever that sum check fails, the call aborts the run, producing no state
at all (so acceptance is unreachable from it). -/
theorem verify_sum_consistency (s : SumcheckState) (p : UPolynomial) (sample : Fp)
    (hrun : s.interaction_completed = false) :
    (∀ s1, SumcheckProtocol.verify s (some p) sample = some s1 →
      ∃ res1 res2, p.eval [0] = some res1 ∧ p.eval [1] = some res2 ∧
        ((s.previous_step = none ∧ Fp.add res1 res2 = s.statement) ∨
         (∃ q prev_eval, s.previous_step = some q ∧
            q.eval [s.randomness.getLastD 0] = some prev_eval ∧
            Fp.add res1 res2 = prev_eval))) ∧
    (∀ res1 res2, p.eval [0] = some res1 → p.eval [1] = some res2 →
      (s.previous_step = none → Fp.add res1 res2 ≠ s.statement →
        SumcheckProtocol.verify s (some p) sample = none) ∧
      (∀ q prev_eval, s.previous_step = some q →
        q.eval [s.randomness.getLastD 0] = some prev_eval →
        Fp.add res1 res2 ≠ prev_eval →
        SumcheckProtocol.verify s (some p) sample = none)) := by
  constructor
  · intro s1 hver
    simp only [SumcheckProtocol.verify, hrun, Bool.false_eq_true, if_false,
      Option.bind_eq_some] at hver
    obtain ⟨d, hdeg, hver⟩ := hver
    split at hver
    · exact Option.noConfusion hver
    · simp only [Option.bind_eq_some] at hver
      obtain ⟨res1, he0, res2, he1, s2, hc, _⟩ := hver
      exact ⟨res1, res2, he0, he1, consistencyCheck_spec s p res1 res2 s2 hc⟩
  · intro res1 res2 he0 he1
    constructor
    · intro hprev hsum
      have hc := consistencyCheck_none_first s p res1 res2 hprev hsum
      simp only [SumcheckProtocol.verify, hrun, Bool.false_eq_true, if_false]
      cases hdeg : p.degree with
      | none => rfl
      | some d =>
        by_cases hd : d ≤ s.polynomial.degree_ind
        · simp only [Option.some_bind, if_neg (not_not_intro hd), he0, he1, hc,
            Option.none_bind]
        · simp only [Option.some_bind, if_pos hd]
    · intro q prev_eval hprev hq hsum
      have hc := consistencyCheck_none_later s p res1 res2 q prev_eval hprev hq hsum
      simp only [SumcheckProtocol.verify, hrun, Bool.false_eq_true, if_false]
      cases hdeg : p.degree with
      | none => rfl
      | some d =>
        by_cases hd : d ≤ s.polynomial.degree_ind
        · simp only [Option.some_bind, if_neg (not_not_intro hd), he0, he1, hc,
            Option.none_bind]
        · simp only [Option.some_bind, if_pos hd]

/-- C1 witness: with the claimed sum 96 cached and no previous round
polynomial, the tampered first-round polynomial `9x + 44`
(`p(0) + p(1) = 97 ≠ 96`) makes verify abort. -/
theorem verify_sum_consistency_witness :
    ({ SumcheckProtocol.new ⟨[2, 3, 5, 7], [1, 1, 1]⟩ with
        statement := 96 } : SumcheckState).interaction_completed = false ∧
    UPolynomial.eval ⟨[9, 44]⟩ [0] = some 44 ∧
    UPolynomial.eval ⟨[9, 44]⟩ [1] = some 53 ∧
    Fp.add 44 53 ≠ 96 ∧
    SumcheckProtocol.verify
      ({ SumcheckProtocol.new ⟨[2, 3, 5, 7], [1, 1, 1]⟩ with statement := 96 })
      (some ⟨[9, 44]⟩) 0 = none := by
  refine ⟨by decide, by decide, by decide, by decide, ?_⟩
  exact ((verify_sum_consistency _ ⟨[9, 44]⟩ 0 (by decide)).2 44 53 (by decide)
    (by decide)).1 (by decide) (by decide)

/-- C10: for the empty-sentinel polynomial, `degree()` aborts (the usize
subtraction underflows) and `eval()` aborts for every assignment, so neither
returns a value. -/
theorem empty_sentinel_degree_eval_abort :
    UPolynomial.degree ⟨[]⟩ = none ∧ ∀ x : List Fp, UPolynomial.eval ⟨[]⟩ x = none := by
  exact ⟨rfl, fun _ => rfl⟩

end Sumcheck
